import Mathlib

/-!
Reachability-based refinement (`rellic/AST/ReachBasedRefine.cpp`).

A shallow embedding of the pass that collapses sibling `if` statements into
`if / else-if / else` cascades, and theorems about it.

Modelling conventions.

* A `clang::Stmt *` is a tree node together with its address (`addr`);
  pointer comparison `stmt == elifs.back()` is comparison of addresses.
* `z3::expr` is the syntax `Z3Expr`; its meaning under an assignment `env` is
  `Z3Expr.eval env`.  The expression translator (`z3_gen`), the simplifier and
  the solver tactic are collaborators of the pass and are fields of `Z3`.
* `CHECK` failure aborts the program: functions that can reach it return
  `Option`, with `none` for the abort.
* `substitutions` (a `std::unordered_map<clang::Stmt *, clang::Stmt *>`) is a
  function from addresses to `Option (Option Stmt)`: `none` is "no entry",
  `some none` is an entry holding `nullptr`, `some (some s)` an entry holding `s`.
-/

namespace rellic

/-! ## Z3 expressions -/

/-- Boolean Z3 expressions built by the pass.  `atom` is whatever the
expression translator produced for a piece of a guard. -/
inductive Z3Expr (Env : Type) where
  | atom : (Env → Bool) → Z3Expr Env
  | bool_val : Bool → Z3Expr Env
  | not : Z3Expr Env → Z3Expr Env
  | and : Z3Expr Env → Z3Expr Env → Z3Expr Env
  | or : Z3Expr Env → Z3Expr Env → Z3Expr Env
  | eq : Z3Expr Env → Z3Expr Env → Z3Expr Env

/-- Meaning of an expression under an assignment of its free variables. -/
def Z3Expr.eval {Env : Type} (env : Env) : Z3Expr Env → Bool
  | .atom p => p env
  | .bool_val b => b
  | .not e => !(e.eval env)
  | .and a b => a.eval env && b.eval env
  | .or a b => a.eval env || b.eval env
  | .eq a b => a.eval env == b.eval env

/-- The function `z3::mk_or`: the disjunction of a vector of expressions, `false` for
the empty vector. -/
def mk_or {Env : Type} : List (Z3Expr Env) → Z3Expr Env
  | [] => .bool_val false
  | c :: cs => .or c (mk_or cs)

/-- State of a sub-goal in the result of applying a tactic. -/
inductive Goal where
  | decided_sat
  | decided_unsat
  | undecided
  deriving DecidableEq, Repr

/-- The method `z3::goal::is_decided_unsat`. -/
def Goal.is_decided_unsat : Goal → Bool
  | .decided_unsat => true
  | _ => false

/-- The Z3 side of the pass: the expression translator `z3_gen`
(`GetOrCreateZ3Expr`, `Z3BoolCast`), `z3::expr::simplify`, and the tactic
`z3_solver` (`"sat"`) applied to a goal holding one formula, giving the list of
resulting sub-goals. -/
structure Z3 (E Env : Type) where
  GetOrCreateZ3Expr : E → Z3Expr Env
  Z3BoolCast : Z3Expr Env → Z3Expr Env
  simplify : Z3Expr Env → Z3Expr Env
  z3_solver : Z3Expr Env → List Goal

/-- The method `ReachBasedRefine::Prove`: `none` is the failed `CHECK(app.size() == 1)`. -/
def Prove {E Env : Type} (z3 : Z3 E Env) (expr : Z3Expr Env) : Option Bool :=
  let goal := z3.simplify (.not expr)
  let app := z3.z3_solver goal
  match app with
  | [g] => some g.is_decided_unsat
  | _ => none

/-! ## Statements -/

/-- The part of the clang statement tree the pass looks at. -/
inductive Stmt (E : Type) where
  | IfStmt (addr : Nat) (cond : E) (then_ : Stmt E) (else_ : Option (Stmt E))
  | CompoundStmt (addr : Nat) (body : List (Stmt E))
  | Other (addr : Nat)

/-- Address of a node. -/
def Stmt.addr {E : Type} : Stmt E → Nat
  | .IfStmt a _ _ _ => a
  | .CompoundStmt a _ => a
  | .Other a => a

/-- A `clang::IfStmt *`: the node's address, `getCond()`, `getThen()`, `getElse()`. -/
structure IfStmt (E : Type) where
  addr : Nat
  cond : E
  then_ : Stmt E
  else_ : Option (Stmt E)

/-- An `IfStmt` seen as a `Stmt`. -/
def IfStmt.toStmt {E : Type} (s : IfStmt E) : Stmt E :=
  .IfStmt s.addr s.cond s.then_ s.else_

/-- The cast `clang::dyn_cast<clang::IfStmt>`. -/
def dyn_cast_IfStmt {E : Type} : Stmt E → Option (IfStmt E)
  | .IfStmt a c t e => some ⟨a, c, t, e⟩
  | _ => none

/-- The function `GetIfStmts`: the `IfStmt` children of a block, in source order. -/
def GetIfStmts {E : Type} (body : List (Stmt E)) : List (IfStmt E) :=
  body.filterMap dyn_cast_IfStmt

/-- The type `StmtMap`. -/
abbrev StmtMap (E : Type) := Nat → Option (Option (Stmt E))

/-- The members of the pass object that change: `substitutions`, the allocator
of `ast_ctx` (the next unused address) and `changed`. -/
structure Pass (E : Type) where
  substitutions : StmtMap E
  ast_ctx : Nat
  changed : Bool

/-- Modelled from the spec: the node factory `CreateIfStmt`
(`createConditionalStatement(guard, thenBranch)`), which is not among the
sources: a new conditional with the given guard and "then" branch and no else. -/
def CreateIfStmt {E : Type} (ast_ctx : Nat) (cond : E) (then_ : Stmt E) : IfStmt E × Nat :=
  (⟨ast_ctx, cond, then_, none⟩, ast_ctx + 1)

/-- Modelled from the spec: the node factory `CreateCompoundStmt`
(`createBlock(statements)`), which is not among the sources: a new block with
the given children. -/
def CreateCompoundStmt {E : Type} (ast_ctx : Nat) (stmts : List (Stmt E)) : Stmt E × Nat :=
  (.CompoundStmt ast_ctx stmts, ast_ctx + 1)

/-! ## `CreateIfElseStmts` -/

/-- The method `ReachBasedRefine::GetZ3Cond`. -/
def GetZ3Cond {E Env : Type} (z3 : Z3 E Env) (ifstmt : IfStmt E) : Z3Expr Env :=
  let cond := ifstmt.cond
  let expr := z3.Z3BoolCast (z3.GetOrCreateZ3Expr cond)
  z3.simplify expr

/-- The lambda `IsUnrechable` of `CreateIfElseStmts`. -/
def IsUnrechable {E Env : Type} (z3 : Z3 E Env) (conds : List (Z3Expr Env))
    (cond : Z3Expr Env) : Option Bool :=
  Prove z3 (.not (.and cond (mk_or conds)))

/-- The lambda `IsTautology` of `CreateIfElseStmts`. -/
def IsTautology {E Env : Type} (z3 : Z3 E Env) (conds : List (Z3Expr Env)) : Option Bool :=
  Prove z3 (.eq (mk_or conds) (.bool_val true))

/-- The locals `elifs` and `conds` of `CreateIfElseStmts`. -/
structure Candidates (E Env : Type) where
  elifs : List (IfStmt E)
  conds : List (Z3Expr Env)

/-- The loop "Gather else-if candidates" over the statements still to scan
(the caller passes them from last to first). -/
def gather {E Env : Type} (z3 : Z3 E Env) :
    List (IfStmt E) → Candidates E Env → Option (Candidates E Env)
  | [], c => some c
  | stmt :: rest, c =>
    match IsTautology z3 c.conds with
    | none => none
    | some true => some c
    | some false =>
      let cond := GetZ3Cond z3 stmt
      let clear : Option Bool :=
        if stmt.else_.isSome then some true
        else (IsUnrechable z3 c.conds cond).map (fun b => !b)
      match clear with
      | none => none
      | some b =>
        let c1 : Candidates E Env := if b then ⟨[], []⟩ else c
        gather z3 rest ⟨c1.elifs ++ [stmt], c1.conds ++ [cond]⟩

/-- State of the loop "Create the else-if cascade".  The `IfStmt`s the loop has
created are linked through `setElse`; `chain` lists them from the outermost one
to `sub` (the last), and `els` is the else-branch `sub` has at the moment. -/
structure Cascade (E : Type) where
  chain : List (IfStmt E)
  els : Option (Stmt E)
  substitutions : StmtMap E
  ast_ctx : Nat

/-- The tree a chain of linked `IfStmt`s stands for: each one has the next as
its else-branch, the last one has `els`. -/
def link {E : Type} : List (IfStmt E) → Option (Stmt E) → Option (Stmt E)
  | [], els => els
  | s :: rest, els => some (.IfStmt s.addr s.cond s.then_ (link rest els))

/-- One iteration of the loop "Create the else-if cascade"; `back` and `front`
are the addresses of `elifs.back()` and `elifs.front()`.  `none` is a
dereference of `sub` while it is still `nullptr`.  The write
`substitutions[stmt] = sub` of the first branch is done by `buildCascade`, once
the node `sub` points to has received its else-branches. -/
def cascadeStep {E : Type} (back front : Nat) (st : Cascade E) (stmt : IfStmt E) :
    Option (Cascade E) :=
  let cond := stmt.cond
  let then_ := stmt.then_
  if stmt.addr = back then
    let (sub, ctx) := CreateIfStmt st.ast_ctx cond then_
    some { chain := [sub], els := none, substitutions := st.substitutions, ast_ctx := ctx }
  else if stmt.addr = front then
    match st.chain with
    | [] => none
    | _ :: _ =>
      let (blk, ctx) := CreateCompoundStmt st.ast_ctx [then_]
      some { st with els := some blk, ast_ctx := ctx,
                     substitutions := Function.update st.substitutions stmt.addr (some none) }
  else
    match st.chain with
    | [] => none
    | _ :: _ =>
      let (elif, ctx) := CreateIfStmt st.ast_ctx cond then_
      some { chain := st.chain ++ [elif], els := none, ast_ctx := ctx,
             substitutions := Function.update st.substitutions stmt.addr (some none) }

/-- The loop "Create the else-if cascade", over `elifs` from back to front. -/
def cascadeLoop {E : Type} (back front : Nat) : List (IfStmt E) → Cascade E → Option (Cascade E)
  | [], st => some st
  | stmt :: rest, st =>
    match cascadeStep back front st stmt with
    | none => none
    | some st1 => cascadeLoop back front rest st1

/-- The second half of `CreateIfElseStmts`: the size check and the cascade
loop.  The entry `substitutions[elifs.back()] = sub` holds a pointer to the
outermost created `IfStmt`, which later iterations extend through `setElse`;
the entry is therefore written here from the finished chain (no other
iteration writes that key). -/
def buildCascade {E : Type} (p : Pass E) (elifs : List (IfStmt E)) : Option (Pass E) :=
  if elifs.length < 2 then some p
  else
    match elifs.getLast?, elifs.head? with
    | some back, some front =>
      match cascadeLoop back.addr front.addr elifs.reverse ⟨[], none, p.substitutions, p.ast_ctx⟩ with
      | none => none
      | some st =>
        some { p with
          substitutions := Function.update st.substitutions back.addr (some (link st.chain st.els))
          ast_ctx := st.ast_ctx }
    | _, _ => some p

/-- The method `ReachBasedRefine::CreateIfElseStmts`; `none` is an abort in `Prove`. -/
def CreateIfElseStmts {E Env : Type} (z3 : Z3 E Env) (p : Pass E) (stmts : List (IfStmt E)) :
    Option (Pass E) :=
  match gather z3 stmts.reverse ⟨[], []⟩ with
  | none => none
  | some c => buildCascade p c.elifs

/-! ## `VisitCompoundStmt` -/

/-- Modelled from the spec: the utility `ReplaceChildren`
(`replaceChildren(node, substitutionMap) -> changed`), which is not among the
sources: each child present as a key of the map is replaced by its mapped
value (`nullptr` for the delete marker), and the result says whether any child
was a key.  The children array after the call may hold `nullptr`s. -/
def ReplaceChildren {E : Type} (children : List (Stmt E)) (repl_map : StmtMap E) :
    List (Option (Stmt E)) × Bool :=
  (children.map (fun ch =>
      match repl_map ch.addr with
      | some v => v
      | none => some ch),
   children.any (fun ch => (repl_map ch.addr).isSome))

/-- The method `ReachBasedRefine::VisitCompoundStmt` on the block at address
`addr` with children `body`.  The result is the pass object after the call and
the children array of the visited block after `ReplaceChildren` changed it in
place; the value returned to the visitor framework is always `true` and is
left out.  `none` is an abort in `Prove`. -/
def VisitCompoundStmt {E Env : Type} (z3 : Z3 E Env) (p : Pass E) (addr : Nat)
    (body : List (Stmt E)) : Option (Pass E × List (Option (Stmt E))) :=
  match CreateIfElseStmts z3 p (GetIfStmts body) with
  | none => none
  | some p1 =>
    let (body1, replaced) := ReplaceChildren body p1.substitutions
    if replaced then
      let new_body := body1.filterMap (fun stmt => stmt)
      let (blk, ctx) := CreateCompoundStmt p1.ast_ctx new_body
      some ({ p1 with
                substitutions := Function.update p1.substitutions addr (some (some blk))
                ast_ctx := ctx }, body1)
    else some (p1, body1)

/-! ## `runOnModule` -/

mutual
/-- The blocks (`CompoundStmt`s) of a statement tree with their children,
nested blocks before the blocks that contain them. -/
def Stmt.blocks {E : Type} : Stmt E → List (Nat × List (Stmt E))
  | .IfStmt _ _ t none => t.blocks
  | .IfStmt _ _ t (some e) => t.blocks ++ e.blocks
  | .CompoundStmt a body => blocksOfList body ++ [(a, body)]
  | .Other _ => []
/-- The blocks of a sequence of statement trees. -/
def blocksOfList {E : Type} : List (Stmt E) → List (Nat × List (Stmt E))
  | [] => []
  | s :: rest => s.blocks ++ blocksOfList rest
end

/-- Whether the children array of a block is no longer what it was: `body` are
the children before the block was visited, `body1` is the array after the
visit, and the two are compared pointer by pointer (`nullptr` for a removed
child). -/
def childrenChanged {E : Type} (body : List (Stmt E)) (body1 : List (Option (Stmt E))) : Bool :=
  body1.map (fun o => o.map Stmt.addr) != body.map (fun ch => some ch.addr)

/-- Modelled from the spec: `Initialize`, which is not among the sources.  A
run of the pass starts without pending substitutions and with `changed` unset. -/
def Initialize {E : Type} (p : Pass E) : Pass E :=
  { p with substitutions := fun _ => none, changed := false }

/-- Modelled from the spec: the traversal `TraverseDecl` with the visitor
dispatch of the enclosing framework, which is not among the sources.  Following
the spec, the per-block hook `VisitCompoundStmt` is invoked once for every block
of the tree (here in the order of the given list of blocks), and `changed`
records whether any block was rewritten: it is set when the hook leaves the
children array of the visited block different from what it was ("any child
was changed or removed"). -/
def TraverseDecl {E Env : Type} (z3 : Z3 E Env) :
    List (Nat × List (Stmt E)) → Pass E → Option (Pass E)
  | [], p => some p
  | (addr, body) :: rest, p =>
    match VisitCompoundStmt z3 p addr body with
    | none => none
    | some (p1, body1) =>
      TraverseDecl z3 rest { p1 with changed := p1.changed || childrenChanged body body1 }

/-- The method `ReachBasedRefine::runOnModule` on a translation unit given by
the bodies of its functions: the pass object after the run and the returned
value of `changed`. -/
def runOnModule {E Env : Type} (z3 : Z3 E Env) (p : Pass E) (tu : List (Stmt E)) :
    Option (Pass E × Bool) :=
  match TraverseDecl z3 (blocksOfList tu) (Initialize p) with
  | none => none
  | some p1 => some (p1, p1.changed)

/-! ## Specification vocabulary -/

/-- The Z3 form of a guard expression: what `GetZ3Cond` hands to the prover. -/
def condZ3 {E Env : Type} (z3 : Z3 E Env) (cond : E) : Z3Expr Env :=
  z3.simplify (z3.Z3BoolCast (z3.GetOrCreateZ3Expr cond))

/-- The guard `cond` holds under the assignment `env`. -/
def holds {E Env : Type} (z3 : Z3 E Env) (env : Env) (cond : E) : Bool :=
  (condZ3 z3 cond).eval env

/-- The prover answers "proved" only for valid formulas. -/
def ProveSound {E Env : Type} (z3 : Z3 E Env) : Prop :=
  ∀ e : Z3Expr Env, Prove z3 e = some true → ∀ env, e.eval env = true

/-- The prover is an exact validity oracle: it always answers, and answers
"proved" exactly for the valid formulas. -/
def ProveExact {E Env : Type} (z3 : Z3 E Env) : Prop :=
  ∀ e : Z3Expr Env, ∃ b, Prove z3 e = some b ∧ (b = true ↔ ∀ env, e.eval env = true)

/-- The iteration of the gather loop for `stmt`, entered with candidates `c`,
neither breaks nor clears. -/
def Keeps {E Env : Type} (z3 : Z3 E Env) (c : Candidates E Env) (stmt : IfStmt E) : Prop :=
  IsTautology z3 c.conds = some false ∧ stmt.else_ = none ∧
    IsUnrechable z3 c.conds (GetZ3Cond z3 stmt) = some true

/-- The iteration of the gather loop for `stmt`, entered with candidates `c`,
does not break and clears the candidates. -/
def Clears {E Env : Type} (z3 : Z3 E Env) (c : Candidates E Env) (stmt : IfStmt E) : Prop :=
  IsTautology z3 c.conds = some false ∧
    (stmt.else_.isSome = true ∨ IsUnrechable z3 c.conds (GetZ3Cond z3 stmt) = some false)

/-- `Scan z3 c xs c1`: the gather loop, entered with candidates `c`, runs one
full iteration for each statement of `xs` (no break, no abort) and leaves `c1`. -/
inductive Scan {E Env : Type} (z3 : Z3 E Env) :
    Candidates E Env → List (IfStmt E) → Candidates E Env → Prop where
  | done (c : Candidates E Env) : Scan z3 c [] c
  | keep {c c1 : Candidates E Env} {stmt : IfStmt E} {rest : List (IfStmt E)} :
      Keeps z3 c stmt →
      Scan z3 ⟨c.elifs ++ [stmt], c.conds ++ [GetZ3Cond z3 stmt]⟩ rest c1 →
      Scan z3 c (stmt :: rest) c1
  | clear {c c1 : Candidates E Env} {stmt : IfStmt E} {rest : List (IfStmt E)} :
      Clears z3 c stmt →
      Scan z3 ⟨[stmt], [GetZ3Cond z3 stmt]⟩ rest c1 →
      Scan z3 c (stmt :: rest) c1

/-- The then-branches executed by running independent conditionals in
sequence under the assignment `env`. -/
def thensOfSeq {E Env : Type} (z3 : Z3 E Env) (env : Env) (stmts : List (IfStmt E)) :
    List (Stmt E) :=
  (stmts.filter (fun s => holds z3 env s.cond)).map (fun s => s.then_)

/-- The then-branches executed by running a cascade under the assignment
`env`: the then-branch of the first conditional of the chain whose guard
holds, or the children of the final else block when no guard holds. -/
def thensOfCascade {E Env : Type} (z3 : Z3 E Env) (env : Env) : Stmt E → List (Stmt E)
  | .IfStmt _ c t none => if holds z3 env c then [t] else []
  | .IfStmt _ c t (some e) => if holds z3 env c then [t] else thensOfCascade z3 env e
  | .CompoundStmt _ body => body
  | .Other _ => []

/-- The cascade the spec describes for a run `S1..Sn` given in source order,
with new nodes allocated from address `a`: `if (g1) T1 else if (g2) T2 ... else { Tn }`. -/
def cascadeOf {E : Type} (a : Nat) : List (IfStmt E) → Option (Stmt E)
  | [] => none
  | [s] => some (.CompoundStmt a [s.then_])
  | s :: t :: rest => some (.IfStmt a s.cond s.then_ (cascadeOf (a + 1) (t :: rest)))

/-- The guards of the statements of `l` are pairwise jointly unsatisfiable. -/
def Exclusive {E Env : Type} (z3 : Z3 E Env) (l : List (IfStmt E)) : Prop :=
  l.Pairwise (fun a b => ∀ env, ¬(holds z3 env a.cond = true ∧ holds z3 env b.cond = true))

/-- The conditionals `CreateIfStmt` makes for the statements of `l`, allocated
consecutively from address `a`. -/
def chainOf {E : Type} (a : Nat) : List (IfStmt E) → List (IfStmt E)
  | [] => []
  | s :: rest => ⟨a, s.cond, s.then_, none⟩ :: chainOf (a + 1) rest

/-- The map `m` with every statement of `l` mapped to the delete marker. -/
def markDeleted {E : Type} (m : StmtMap E) (l : List (IfStmt E)) : StmtMap E :=
  fun k => if k ∈ l.map IfStmt.addr then some none else m k

/-- The last branch of a cascade: follow the else-branches down to the first
node that is not a conditional with an else-branch.  It is a conditional when
the last statement kept its guard, and a block when the guard was dropped. -/
def lastBranch {E : Type} : Stmt E → Stmt E
  | .IfStmt a c t none => .IfStmt a c t none
  | .IfStmt _ _ _ (some e) => lastBranch e
  | .CompoundStmt a body => .CompoundStmt a body
  | .Other a => .Other a

/-- The solver decides satisfiability exactly: its application yields one
sub-goal, decided unsatisfiable when the formula has no satisfying assignment
and decided satisfiable when it has one. -/
def SolverExact {E Env : Type} (z3 : Z3 E Env) : Prop :=
  ∀ g : Z3Expr Env,
    ((∀ env, g.eval env = false) → z3.z3_solver g = [.decided_unsat]) ∧
    ((∃ env, g.eval env = true) → z3.z3_solver g = [.decided_sat])

/-- The simplifier preserves meaning. -/
def SimplifySound {E Env : Type} (z3 : Z3 E Env) : Prop :=
  ∀ (e : Z3Expr Env) (env : Env), (z3.simplify e).eval env = e.eval env

/-- The gather loop together with the statements it leaves unscanned (in scan
order): none when the loop runs to the end of the list, and otherwise the
statement at which the tautology test stops the loop followed by the
statements not reached.  The first component is what `gather` computes. -/
def gatherRest {E Env : Type} (z3 : Z3 E Env) :
    List (IfStmt E) → Candidates E Env → Option (Candidates E Env × List (IfStmt E))
  | [], c => some (c, [])
  | stmt :: rest, c =>
    match IsTautology z3 c.conds with
    | none => none
    | some true => some (c, stmt :: rest)
    | some false =>
      let cond := GetZ3Cond z3 stmt
      let clear : Option Bool :=
        if stmt.else_.isSome then some true
        else (IsUnrechable z3 c.conds cond).map (fun b => !b)
      match clear with
      | none => none
      | some b =>
        let c1 : Candidates E Env := if b then ⟨[], []⟩ else c
        gatherRest z3 rest ⟨c1.elifs ++ [stmt], c1.conds ++ [cond]⟩

mutual
/-- The node with address `x` occurs in the statement tree (as the root or below it). -/
def Stmt.contains {E : Type} (x : Nat) : Stmt E → Bool
  | .IfStmt a _ t none => a == x || t.contains x
  | .IfStmt a _ t (some e) => a == x || t.contains x || e.contains x
  | .CompoundStmt a body => a == x || containsList x body
  | .Other a => a == x
/-- The node with address `x` occurs in one of the statement trees of the list. -/
def containsList {E : Type} (x : Nat) : List (Stmt E) → Bool
  | [] => false
  | s :: rest => s.contains x || containsList x rest
end

/-- Every statement held as a value of `substitutions` is a node allocated at
or after the address `base` and before the allocator's next address. -/
def NewValues {E : Type} (base : Nat) (p : Pass E) : Prop :=
  base ≤ p.ast_ctx ∧
    ∀ k v, p.substitutions k = some (some v) → base ≤ v.addr ∧ v.addr < p.ast_ctx

/-! ## A small world for examples

One integer variable `x` ranging over `0..4`; guards are predicates on `x`, the
translator turns a guard into an atom, and the solver decides by enumeration. -/

/-- A solver that decides a formula over `x` by trying the five values. -/
def demoSolver (e : Z3Expr (Fin 5)) : List Goal :=
  if ([0, 1, 2, 3, 4] : List (Fin 5)).all (fun env => !(e.eval env)) then [.decided_unsat]
  else [.decided_sat]

/-- The Z3 side of the example world. -/
def demoZ3 : Z3 (Fin 5 → Bool) (Fin 5) := ⟨.atom, id, id, demoSolver⟩

/-- The guard `x == n`. -/
def xEq (n : Nat) : Fin 5 → Bool := fun x => x.val == n

/-- The guard `x != n`. -/
def xNe (n : Nat) : Fin 5 → Bool := fun x => x.val != n

/-- The statement `if (g) body` at address `addr`, without else-branch. -/
def ifX (addr : Nat) (g : Fin 5 → Bool) (body : Nat) : IfStmt (Fin 5 → Bool) :=
  ⟨addr, g, .Other body, none⟩

/-- A pass object with no substitutions, allocating from address 100. -/
def demoPass : Pass (Fin 5 → Bool) := ⟨fun _ => none, 100, false⟩

/-- Scenario 1 of the spec: `if (x==1) ..; if (x==2) ..; if (x==3) ..`. -/
def demo123 : List (IfStmt (Fin 5 → Bool)) :=
  [ifX 1 (xEq 1) 11, ifX 2 (xEq 2) 12, ifX 3 (xEq 3) 13]

/-- The cascade built for `demo123`. -/
def demo123Cascade : Stmt (Fin 5 → Bool) :=
  .IfStmt 100 (xEq 1) (.Other 11)
    (some (.IfStmt 101 (xEq 2) (.Other 12) (some (.CompoundStmt 102 [.Other 13]))))

/-- The candidates the gather loop leaves for `demo123`: all three statements. -/
def demo123Run : Candidates (Fin 5 → Bool) (Fin 5) :=
  ⟨[ifX 3 (xEq 3) 13, ifX 2 (xEq 2) 12, ifX 1 (xEq 1) 11],
   [.atom (xEq 3), .atom (xEq 2), .atom (xEq 1)]⟩

/-- A pair of siblings whose second statement has an else-branch:
`if (x==1) ..; if (x==2) .. else ..`. -/
def demoElse : List (IfStmt (Fin 5 → Bool)) :=
  [ifX 1 (xEq 1) 11, ⟨2, xEq 2, .Other 12, some (.Other 22)⟩]

/-- The candidates the gather loop leaves for `demoElse`: both statements. -/
def demoElseRun : Candidates (Fin 5 → Bool) (Fin 5) :=
  ⟨[⟨2, xEq 2, .Other 12, some (.Other 22)⟩, ifX 1 (xEq 1) 11],
   [.atom (xEq 2), .atom (xEq 1)]⟩

/-- An exhaustive pair of siblings: `if (x==1) ..; if (x!=1) ..`. -/
def demoExh : List (IfStmt (Fin 5 → Bool)) :=
  [ifX 1 (xEq 1) 11, ifX 2 (xNe 1) 12]

/-- The candidates the gather loop leaves for `demoExh`: both statements. -/
def demoExhRun : Candidates (Fin 5 → Bool) (Fin 5) :=
  ⟨[ifX 2 (xNe 1) 12, ifX 1 (xEq 1) 11], [.atom (xNe 1), .atom (xEq 1)]⟩

/-- Scenario 4 of the spec: a conditional with an else-branch between two
others: `if (x==1) ..; if (x==2) .. else ..; if (x==3) ..`. -/
def demoMid : List (IfStmt (Fin 5 → Bool)) :=
  [ifX 1 (xEq 1) 11, ⟨2, xEq 2, .Other 12, some (.Other 22)⟩, ifX 3 (xEq 3) 13]

/-- A block for scenario 1: the three conditionals among other statements. -/
def demoBlock : List (Stmt (Fin 5 → Bool)) :=
  [.Other 5, (ifX 1 (xEq 1) 11).toStmt, (ifX 2 (xEq 2) 12).toStmt, .Other 6,
   (ifX 3 (xEq 3) 13).toStmt]

/-- The children of the block that replaces `demoBlock`. -/
def demoBlock1 : List (Stmt (Fin 5 → Bool)) :=
  [.Other 5, demo123Cascade, .Other 6]

/-- A block with two exhaustive pairs of conditionals:
`if (x!=1) ..; if (x==1) ..; if (x==1) ..; if (x!=1) ..`. -/
def demoTwice : List (Stmt (Fin 5 → Bool)) :=
  [(ifX 1 (xNe 1) 11).toStmt, .Other 5, (ifX 2 (xEq 1) 12).toStmt,
   (ifX 3 (xEq 1) 13).toStmt, .Other 6, (ifX 4 (xNe 1) 14).toStmt]

/-- The children of the block that replaces `demoTwice`: the last pair collapsed. -/
def demoTwice1 : List (Stmt (Fin 5 → Bool)) :=
  [(ifX 1 (xNe 1) 11).toStmt, .Other 5, (ifX 2 (xEq 1) 12).toStmt,
   .IfStmt 100 (xEq 1) (.Other 13) (some (.CompoundStmt 101 [.Other 14])), .Other 6]

/-- The children of the block that replaces the block of `demoTwice1`: the
first pair collapsed as well. -/
def demoTwice2 : List (Stmt (Fin 5 → Bool)) :=
  [.IfStmt 103 (xNe 1) (.Other 11) (some (.CompoundStmt 104 [.Other 12])), .Other 5,
   .IfStmt 100 (xEq 1) (.Other 13) (some (.CompoundStmt 101 [.Other 14])), .Other 6]

/-- A Z3 side whose solver application yields two sub-goals. -/
def demoZ3Two : Z3 (Fin 5 → Bool) (Fin 5) := ⟨.atom, id, id, fun _ => [.undecided, .undecided]⟩

/-- A Z3 side whose solver leaves every goal undecided ("unknown"). -/
def demoZ3Unknown : Z3 (Fin 5 → Bool) (Fin 5) := ⟨.atom, id, id, fun _ => [.undecided]⟩

/-- Scenario 2 of the spec: `if (x==1) ..; if (x==2) ..; if (x==3) ..; if (true) ..`. -/
def demoCatchAll : List (IfStmt (Fin 5 → Bool)) :=
  [ifX 1 (xEq 1) 11, ifX 2 (xEq 2) 12, ifX 3 (xEq 3) 13, ifX 4 (fun _ => true) 14]

/-- A block whose conditional children are those of `demoCatchAll`. -/
def demoCatchAllBlock : List (Stmt (Fin 5 → Bool)) :=
  [(ifX 1 (xEq 1) 11).toStmt, (ifX 2 (xEq 2) 12).toStmt, .Other 5,
   (ifX 3 (xEq 3) 13).toStmt, (ifX 4 (fun _ => true) 14).toStmt]

/-- Scenario 3 of the spec: two conditionals with the same guard `x==1`. -/
def demoSame : List (IfStmt (Fin 5 → Bool)) :=
  [ifX 1 (xEq 1) 11, ifX 2 (xEq 1) 12]

/-- The conditional children of `demoTwice`. -/
def demoTwiceIfs : List (IfStmt (Fin 5 → Bool)) :=
  [ifX 1 (xNe 1) 11, ifX 2 (xEq 1) 12, ifX 3 (xEq 1) 13, ifX 4 (xNe 1) 14]

/-- The candidates the gather loop leaves for `demoTwiceIfs`: the last two statements. -/
def demoTwiceRun : Candidates (Fin 5 → Bool) (Fin 5) :=
  ⟨[ifX 4 (xNe 1) 14, ifX 3 (xEq 1) 13], [.atom (xNe 1), .atom (xEq 1)]⟩

/-! ## Theorems -/

section gather_lemmas

variable {E Env : Type} {z3 : Z3 E Env}

theorem gather_nil (c : Candidates E Env) : gather z3 [] c = some c := rfl

theorem gather_cons_break {c : Candidates E Env} (stmt : IfStmt E) (rest : List (IfStmt E))
    (h : IsTautology z3 c.conds = some true) : gather z3 (stmt :: rest) c = some c := by
  simp [gather, h]

theorem gather_cons_keep {c : Candidates E Env} {stmt : IfStmt E} (rest : List (IfStmt E))
    (h : Keeps z3 c stmt) :
    gather z3 (stmt :: rest) c
      = gather z3 rest ⟨c.elifs ++ [stmt], c.conds ++ [GetZ3Cond z3 stmt]⟩ := by
  obtain ⟨h1, h2, h3⟩ := h
  simp [gather, h1, h2, h3]

theorem gather_cons_clear {c : Candidates E Env} {stmt : IfStmt E} (rest : List (IfStmt E))
    (h : Clears z3 c stmt) :
    gather z3 (stmt :: rest) c = gather z3 rest ⟨[stmt], [GetZ3Cond z3 stmt]⟩ := by
  obtain ⟨h1, h2⟩ := h
  rcases h2 with h2 | h2
  · simp [gather, h1, h2]
  · by_cases he : stmt.else_.isSome = true
    · simp [gather, h1, he]
    · simp [gather, h1, he, h2]

/-- A completed gather loop is a scan of an initial part of the input that
either consumed everything or was stopped by the tautology test. -/
theorem gather_eq_some {xs : List (IfStmt E)} {c0 c : Candidates E Env}
    (h : gather z3 xs c0 = some c) :
    ∃ scanned rest, xs = scanned ++ rest ∧ Scan z3 c0 scanned c ∧
      (rest = [] ∨ IsTautology z3 c.conds = some true) := by
  induction xs generalizing c0 with
  | nil =>
    simp only [gather, Option.some.injEq] at h
    subst h
    exact ⟨[], [], rfl, Scan.done _, Or.inl rfl⟩
  | cons stmt rest ih =>
    cases hT : IsTautology z3 c0.conds with
    | none => simp [gather, hT] at h
    | some b =>
      cases b with
      | true =>
        rw [gather_cons_break stmt rest hT] at h
        simp only [Option.some.injEq] at h
        subst h
        exact ⟨[], stmt :: rest, rfl, Scan.done _, Or.inr hT⟩
      | false =>
        by_cases he : stmt.else_.isSome = true
        · have hc : Clears z3 c0 stmt := ⟨hT, Or.inl he⟩
          rw [gather_cons_clear rest hc] at h
          obtain ⟨sc, r, hxs, hscan, hstop⟩ := ih h
          exact ⟨stmt :: sc, r, by simp [hxs], Scan.clear hc hscan, hstop⟩
        · cases hU : IsUnrechable z3 c0.conds (GetZ3Cond z3 stmt) with
          | none => simp [gather, hT, he, hU] at h
          | some u =>
            cases u with
            | true =>
              have he2 : stmt.else_ = none := by
                cases hs : stmt.else_ with
                | none => rfl
                | some v => simp [hs] at he
              have hk : Keeps z3 c0 stmt := ⟨hT, he2, hU⟩
              rw [gather_cons_keep rest hk] at h
              obtain ⟨sc, r, hxs, hscan, hstop⟩ := ih h
              exact ⟨stmt :: sc, r, by simp [hxs], Scan.keep hk hscan, hstop⟩
            | false =>
              have hc : Clears z3 c0 stmt := ⟨hT, Or.inr hU⟩
              rw [gather_cons_clear rest hc] at h
              obtain ⟨sc, r, hxs, hscan, hstop⟩ := ih h
              exact ⟨stmt :: sc, r, by simp [hxs], Scan.clear hc hscan, hstop⟩

/-- Conversely, a scan followed by the end of the input or by a successful
tautology test is what the gather loop computes. -/
theorem gather_of_scan {scanned : List (IfStmt E)} {c0 c : Candidates E Env}
    (hs : Scan z3 c0 scanned c) (rest : List (IfStmt E))
    (hstop : rest = [] ∨ IsTautology z3 c.conds = some true) :
    gather z3 (scanned ++ rest) c0 = some c := by
  induction hs with
  | done c =>
    rcases hstop with h | h
    · subst h; rfl
    · cases rest with
      | nil => rfl
      | cons s r => exact gather_cons_break s r h
  | keep hk _ ih =>
    rw [List.cons_append, gather_cons_keep _ hk]
    exact ih hstop
  | clear hc _ ih =>
    rw [List.cons_append, gather_cons_clear _ hc]
    exact ih hstop

/-- A property of the candidates that every full iteration preserves holds
after a scan. -/
theorem Scan.invariant {P : Candidates E Env → Prop}
    (hkeep : ∀ c stmt, P c → Keeps z3 c stmt →
      P ⟨c.elifs ++ [stmt], c.conds ++ [GetZ3Cond z3 stmt]⟩)
    (hclear : ∀ stmt, P ⟨[stmt], [GetZ3Cond z3 stmt]⟩)
    {c0 c : Candidates E Env} {xs : List (IfStmt E)} (hs : Scan z3 c0 xs c) (h0 : P c0) :
    P c := by
  induction hs with
  | done c => exact h0
  | keep hk _ ih => exact ih (hkeep _ _ h0 hk)
  | clear _ _ ih => exact ih (hclear _)

/-- The formulas gathered are the Z3 forms of the guards of the statements gathered. -/
theorem Scan.conds_eq {c0 c : Candidates E Env} {xs : List (IfStmt E)}
    (hs : Scan z3 c0 xs c) (h0 : c0.conds = c0.elifs.map (GetZ3Cond z3)) :
    c.conds = c.elifs.map (GetZ3Cond z3) := by
  refine Scan.invariant (P := fun c => c.conds = c.elifs.map (GetZ3Cond z3)) ?_ ?_ hs h0
  · intro c stmt hc _
    simp only [List.map_append, List.map_cons, List.map_nil]
    rw [hc]
  · intro stmt; rfl

/-- Only the first gathered statement can have an else-branch. -/
theorem Scan.tail_no_else {c0 c : Candidates E Env} {xs : List (IfStmt E)}
    (hs : Scan z3 c0 xs c) (h0 : ∀ s ∈ c0.elifs.tail, s.else_ = none) :
    ∀ s ∈ c.elifs.tail, s.else_ = none := by
  refine Scan.invariant (P := fun c => ∀ s ∈ c.elifs.tail, s.else_ = none) ?_ ?_ hs h0
  · intro c stmt hc hk s hsm
    cases hl : c.elifs with
    | nil => simp [hl] at hsm
    | cons a l =>
      rw [hl] at hsm hc
      simp only [List.cons_append, List.tail_cons, List.mem_append, List.mem_singleton] at hsm hc
      rcases hsm with h | h
      · exact hc s h
      · rw [h]; exact hk.2.1
  · intro stmt s hsm
    simp at hsm

/-- The gathered statements are the last ones scanned. -/
theorem Scan.suffix {c0 c : Candidates E Env} {xs : List (IfStmt E)}
    (hs : Scan z3 c0 xs c) : ∃ pre, c0.elifs ++ xs = pre ++ c.elifs := by
  induction hs with
  | done c => exact ⟨[], by simp⟩
  | keep _ _ ih =>
    obtain ⟨pre, h⟩ := ih
    exact ⟨pre, by simpa using h⟩
  | clear _ _ ih =>
    rename_i c c1 stmt rest _ _
    obtain ⟨pre, h⟩ := ih
    refine ⟨c.elifs ++ pre, ?_⟩
    simp only [List.singleton_append] at h
    simp [h]

theorem eval_mk_or (env : Env) (l : List (Z3Expr Env)) :
    (mk_or l).eval env = true ↔ ∃ e ∈ l, e.eval env = true := by
  induction l with
  | nil => simp [mk_or, Z3Expr.eval]
  | cons a l ih => simp [mk_or, Z3Expr.eval, ih]

theorem eval_mk_or_map (env : Env) (l : List (IfStmt E)) :
    (mk_or (l.map (GetZ3Cond z3))).eval env = true ↔ ∃ s ∈ l, holds z3 env s.cond = true := by
  rw [eval_mk_or]
  constructor
  · rintro ⟨e, he, hv⟩
    obtain ⟨s, hs, rfl⟩ := List.mem_map.1 he
    exact ⟨s, hs, hv⟩
  · rintro ⟨s, hs, hv⟩
    exact ⟨_, List.mem_map.2 ⟨s, hs, rfl⟩, hv⟩

/-- What a successful unreachability test means when the prover is sound. -/
theorem IsUnrechable_sound (hp : ProveSound z3) {conds : List (Z3Expr Env)} {cond : Z3Expr Env}
    (h : IsUnrechable z3 conds cond = some true) (env : Env) :
    ¬(cond.eval env = true ∧ (mk_or conds).eval env = true) := by
  have := hp _ h env
  simp only [Z3Expr.eval, Bool.not_eq_true', Bool.and_eq_false_iff] at this
  rintro ⟨h1, h2⟩
  rcases this with h | h
  · rw [h1] at h; exact Bool.noConfusion h
  · rw [h2] at h; exact Bool.noConfusion h

/-- What a successful tautology test means when the prover is sound. -/
theorem IsTautology_sound (hp : ProveSound z3) {conds : List (Z3Expr Env)}
    (h : IsTautology z3 conds = some true) (env : Env) : (mk_or conds).eval env = true := by
  have := hp _ h env
  simpa [Z3Expr.eval] using this

/-- With a sound prover the gathered statements have pairwise exclusive guards. -/
theorem Scan.exclusive (hp : ProveSound z3) {c0 c : Candidates E Env} {xs : List (IfStmt E)}
    (hs : Scan z3 c0 xs c) (h0 : c0.conds = c0.elifs.map (GetZ3Cond z3))
    (h1 : Exclusive z3 c0.elifs) : Exclusive z3 c.elifs := by
  have key := Scan.invariant
    (P := fun c => c.conds = c.elifs.map (GetZ3Cond z3) ∧ Exclusive z3 c.elifs) ?_ ?_ hs ⟨h0, h1⟩
  · exact key.2
  · rintro c stmt ⟨hc, hex⟩ hk
    refine ⟨by simp [hc], ?_⟩
    unfold Exclusive at hex ⊢
    rw [List.pairwise_append]
    refine ⟨hex, List.pairwise_singleton _ _, ?_⟩
    intro a ha b hb env
    rw [List.mem_singleton] at hb
    subst hb
    rintro ⟨ha1, hb1⟩
    refine IsUnrechable_sound hp hk.2.2 env ⟨hb1, ?_⟩
    rw [hc, eval_mk_or_map]
    exact ⟨a, ha, ha1⟩
  · intro stmt
    exact ⟨rfl, List.pairwise_singleton _ _⟩

end gather_lemmas

section cascade_lemmas

variable {E : Type}

theorem chainOf_append (a : Nat) (l1 l2 : List (IfStmt E)) :
    chainOf a (l1 ++ l2) = chainOf a l1 ++ chainOf (a + l1.length) l2 := by
  induction l1 generalizing a with
  | nil => simp [chainOf]
  | cons s r ih =>
    rw [List.cons_append]
    simp only [chainOf, ih, List.length_cons, List.cons_append]
    rw [show a + 1 + r.length = a + (r.length + 1) by omega]

theorem link_append (l1 l2 : List (IfStmt E)) (els : Option (Stmt E)) :
    link (l1 ++ l2) els = link l1 (link l2 els) := by
  induction l1 with
  | nil => rfl
  | cons s r ih => rw [List.cons_append]; simp only [link, ih]

theorem cascadeLoop_cons (back front : Nat) (s : IfStmt E) (rest : List (IfStmt E))
    (st : Cascade E) :
    cascadeLoop back front (s :: rest) st
      = (cascadeStep back front st s).bind (cascadeLoop back front rest) := by
  simp only [cascadeLoop]
  cases cascadeStep back front st s <;> rfl

theorem cascadeStep_first (back front : Nat) (s : IfStmt E) (st : Cascade E)
    (h : s.addr = back) :
    cascadeStep back front st s
      = some ⟨[⟨st.ast_ctx, s.cond, s.then_, none⟩], none, st.substitutions, st.ast_ctx + 1⟩ := by
  simp [cascadeStep, h, CreateIfStmt]

theorem cascadeStep_mid (back front : Nat) (s : IfStmt E) (st : Cascade E)
    (h1 : s.addr ≠ back) (h2 : s.addr ≠ front) (hne : st.chain ≠ []) :
    cascadeStep back front st s
      = some ⟨st.chain ++ [⟨st.ast_ctx, s.cond, s.then_, none⟩], none,
          Function.update st.substitutions s.addr (some none), st.ast_ctx + 1⟩ := by
  obtain ⟨x, xs, hx⟩ := List.exists_cons_of_ne_nil hne
  simp [cascadeStep, h1, h2, hx, CreateIfStmt]

theorem cascadeStep_last (back front : Nat) (s : IfStmt E) (st : Cascade E)
    (h1 : s.addr ≠ back) (h2 : s.addr = front) (hne : st.chain ≠ []) :
    cascadeStep back front st s
      = some ⟨st.chain, some (.CompoundStmt st.ast_ctx [s.then_]),
          Function.update st.substitutions s.addr (some none), st.ast_ctx + 1⟩ := by
  obtain ⟨x, xs, hx⟩ := List.exists_cons_of_ne_nil hne
  subst h2
  simp [cascadeStep, h1, hx, CreateCompoundStmt]

/-- The interior iterations of the cascade loop. -/
theorem cascadeLoop_mid (back front : Nat) (mid tl : List (IfStmt E)) (st : Cascade E)
    (hb : ∀ s ∈ mid, s.addr ≠ back) (hf : ∀ s ∈ mid, s.addr ≠ front) (hne : st.chain ≠ []) :
    cascadeLoop back front (mid ++ tl) st
      = cascadeLoop back front tl
          ⟨st.chain ++ chainOf st.ast_ctx mid, if mid.isEmpty then st.els else none,
           markDeleted st.substitutions mid, st.ast_ctx + mid.length⟩ := by
  induction mid generalizing st with
  | nil =>
    have : markDeleted st.substitutions [] = st.substitutions := by
      funext k; simp [markDeleted]
    simp [chainOf, this]
  | cons s r ih =>
    have h1 : s.addr ≠ back := hb s (List.mem_cons_self _ _)
    have h2 : s.addr ≠ front := hf s (List.mem_cons_self _ _)
    rw [List.cons_append, cascadeLoop_cons, cascadeStep_mid back front s st h1 h2 hne,
      Option.some_bind,
      ih _ (fun t ht => hb t (List.mem_cons_of_mem _ ht))
        (fun t ht => hf t (List.mem_cons_of_mem _ ht)) (by simp)]
    congr 1
    have e1 : st.chain ++ [⟨st.ast_ctx, s.cond, s.then_, none⟩] ++ chainOf (st.ast_ctx + 1) r
        = st.chain ++ chainOf st.ast_ctx (s :: r) := by
      simp [chainOf]
    have e2 : (if r.isEmpty then (none : Option (Stmt E)) else none)
        = (if (s :: r).isEmpty then st.els else none) := by
      cases r <;> simp
    have e3 : markDeleted (Function.update st.substitutions s.addr (some none)) r
        = markDeleted st.substitutions (s :: r) := by
      funext k
      by_cases hk : k = s.addr
      · subst hk; simp [markDeleted]
      · simp [markDeleted, hk, Function.update_noteq hk]
    have e4 : st.ast_ctx + 1 + r.length = st.ast_ctx + (s :: r).length := by
      simp only [List.length_cons]; omega
    simp only [e1, e2, e3, e4]

theorem link_chainOf (a : Nat) (s1 : IfStmt E) (mid : List (IfStmt E)) (sn : IfStmt E) :
    link (chainOf a (s1 :: mid)) (some (.CompoundStmt (a + (mid.length + 1)) [sn.then_]))
      = cascadeOf a (s1 :: (mid ++ [sn])) := by
  induction mid generalizing a s1 with
  | nil => simp [chainOf, link, cascadeOf]
  | cons m r ih =>
    have h := ih (a + 1) m
    rw [List.cons_append]
    rw [show a + ((m :: r).length + 1) = a + 1 + (r.length + 1) by
      simp only [List.length_cons]; omega]
    simp only [cascadeOf]
    rw [← h]
    rfl

/-- The cascade builder on a run `S1..Sn` (`n ≥ 2`) of statements with distinct
addresses: `S1` is mapped to the cascade, the others to the delete marker. -/
theorem buildCascade_run (p : Pass E) (s1 : IfStmt E) (mid : List (IfStmt E)) (sn : IfStmt E)
    (hnd : ((s1 :: (mid ++ [sn])).map IfStmt.addr).Nodup) :
    buildCascade p (s1 :: (mid ++ [sn])).reverse
      = some { p with
          substitutions := fun k =>
            if k = s1.addr then some (cascadeOf p.ast_ctx (s1 :: (mid ++ [sn])))
            else markDeleted p.substitutions (mid ++ [sn]) k
          ast_ctx := p.ast_ctx + (mid.length + 2) } := by
  simp only [List.map_cons, List.map_append, List.map_nil, List.nodup_cons, List.mem_append,
    List.mem_map, List.mem_singleton, not_or, not_exists, not_and, List.nodup_append,
    List.nodup_nil, and_true, List.disjoint_singleton] at hnd
  obtain ⟨⟨h1m, h1n⟩, hmid, _, hmn⟩ := hnd
  have hlen : ¬ ((s1 :: (mid ++ [sn])).reverse.length < 2) := by simp
  have hlast : (s1 :: (mid ++ [sn])).reverse.getLast? = some s1 := by
    rw [List.getLast?_reverse]; rfl
  have hhead : (s1 :: (mid ++ [sn])).reverse.head? = some sn := by simp
  have hb : ∀ s ∈ mid, s.addr ≠ s1.addr := fun s hs h => h1m s hs h
  have hf : ∀ s ∈ mid, s.addr ≠ sn.addr := fun s hs h => hmn s hs h
  have hsn : sn.addr ≠ s1.addr := fun h => h1n h.symm
  simp only [buildCascade, hlen, if_false, hlast, hhead, List.reverse_reverse]
  rw [cascadeLoop_cons, cascadeStep_first _ _ _ _ rfl, Option.some_bind,
    cascadeLoop_mid _ _ _ _ _ hb hf (by simp), cascadeLoop_cons,
    cascadeStep_last _ _ _ _ hsn rfl (by simp), Option.some_bind]
  simp only [cascadeLoop]
  have hch : (([⟨p.ast_ctx, s1.cond, s1.then_, none⟩] : List (IfStmt E))
      ++ chainOf (p.ast_ctx + 1) mid) = chainOf p.ast_ctx (s1 :: mid) := rfl
  have hl := link_chainOf p.ast_ctx s1 mid sn
  rw [hch, show p.ast_ctx + 1 + mid.length = p.ast_ctx + (mid.length + 1) by omega, hl]
  congr 2
  · funext k
    by_cases hk : k = s1.addr
    · subst hk; simp
    · simp only [hk, if_false, Function.update_noteq hk]
      by_cases hk2 : k = sn.addr
      · subst hk2; simp [markDeleted]
      · simp [hk2, Function.update_noteq hk2, markDeleted]

end cascade_lemmas

section run_lemmas

variable {E Env : Type} {z3 : Z3 E Env}

/-- The run left by the gather loop is a contiguous segment of the list: the
statements after it were scanned and dropped, the statements before it were
not scanned because the tautology test stopped the loop. -/
theorem gather_segment {stmts : List (IfStmt E)} {c : Candidates E Env}
    (hg : gather z3 stmts.reverse ⟨[], []⟩ = some c) :
    ∃ A B, stmts = A ++ c.elifs.reverse ++ B ∧
      (A = [] ∨ IsTautology z3 c.conds = some true) ∧
      Scan z3 ⟨[], []⟩ (B.reverse ++ c.elifs) c := by
  obtain ⟨scanned, rest, hxs, hscan, hstop⟩ := gather_eq_some hg
  obtain ⟨pre, hpre⟩ := hscan.suffix
  simp only [List.nil_append] at hpre
  refine ⟨rest.reverse, pre.reverse, ?_, ?_, ?_⟩
  · have := congrArg List.reverse hxs
    rw [List.reverse_reverse, hpre] at this
    simpa using this
  · rcases hstop with h | h
    · left; simp [h]
    · right; exact h
  · rw [List.reverse_reverse, ← hpre]; exact hscan

theorem exists_first_mid_last {α : Type} (l : List α) (h : 2 ≤ l.length) :
    ∃ a m b, l = a :: (m ++ [b]) := by
  cases l with
  | nil => simp at h
  | cons a t =>
    have ht : t ≠ [] := by
      intro h0; subst h0; simp at h
    exact ⟨a, t.dropLast, t.getLast ht, by rw [List.dropLast_append_getLast]⟩

theorem run_nodup {stmts A B : List (IfStmt E)} {run : List (IfStmt E)}
    (h : stmts = A ++ run ++ B) (hnd : (stmts.map IfStmt.addr).Nodup) :
    (run.map IfStmt.addr).Nodup := by
  subst h
  simp only [List.map_append] at hnd
  exact (List.nodup_append.1 (List.nodup_append.1 hnd).1).2.1

/-- What `CreateIfElseStmts` records for a run of at least two statements. -/
theorem CreateIfElseStmts_run (p : Pass E) {stmts : List (IfStmt E)} {c : Candidates E Env}
    (hg : gather z3 stmts.reverse ⟨[], []⟩ = some c) (hn : 2 ≤ c.elifs.length)
    (hnd : (stmts.map IfStmt.addr).Nodup) :
    ∃ s1 mid sn, c.elifs.reverse = s1 :: (mid ++ [sn]) ∧
      CreateIfElseStmts z3 p stmts
        = some { p with
            substitutions := fun k =>
              if k = s1.addr then some (cascadeOf p.ast_ctx (c.elifs.reverse))
              else if k ∈ (mid ++ [sn]).map IfStmt.addr then some none
              else p.substitutions k
            ast_ctx := p.ast_ctx + c.elifs.length } := by
  obtain ⟨A, B, hseg, -, -⟩ := gather_segment hg
  have hrn := run_nodup hseg hnd
  obtain ⟨s1, mid, sn, hrun⟩ := exists_first_mid_last c.elifs.reverse (by simpa using hn)
  refine ⟨s1, mid, sn, hrun, ?_⟩
  have he : c.elifs = (s1 :: (mid ++ [sn])).reverse := by
    rw [← hrun, List.reverse_reverse]
  rw [hrun] at hrn
  have hb := buildCascade_run p s1 mid sn hrn
  simp only [CreateIfElseStmts, hg]
  rw [he, hb]
  simp only [markDeleted, List.reverse_reverse, List.length_reverse, List.length_cons,
    List.length_append, List.length_nil, Nat.zero_add]

end run_lemmas

section totality

variable {E Env : Type} {z3 : Z3 E Env}

/-- When the prover always answers, the gather loop completes. -/
theorem gather_total (hp : ∀ e, ∃ b, Prove z3 e = some b) (xs : List (IfStmt E))
    (c0 : Candidates E Env) : ∃ c, gather z3 xs c0 = some c := by
  induction xs generalizing c0 with
  | nil => exact ⟨c0, rfl⟩
  | cons stmt rest ih =>
    obtain ⟨t, ht⟩ := hp (.eq (mk_or c0.conds) (.bool_val true))
    obtain ⟨u, hu⟩ := hp (.not (.and (GetZ3Cond z3 stmt) (mk_or c0.conds)))
    cases t with
    | true => exact ⟨c0, gather_cons_break stmt rest ht⟩
    | false =>
      by_cases he : stmt.else_.isSome = true
      · rw [gather_cons_clear rest ⟨ht, Or.inl he⟩]; exact ih _
      · cases u with
        | true =>
          have he2 : stmt.else_ = none := by
            cases hs : stmt.else_ with
            | none => rfl
            | some v => simp [hs] at he
          rw [gather_cons_keep rest ⟨ht, he2, hu⟩]; exact ih _
        | false =>
          rw [gather_cons_clear rest ⟨ht, Or.inr hu⟩]; exact ih _

/-- The solver of the example world always yields one sub-goal. -/
theorem demoZ3_total (e : Z3Expr (Fin 5)) : ∃ b, Prove demoZ3 e = some b := by
  by_cases h : (([0, 1, 2, 3, 4] : List (Fin 5)).all
      (fun env => !((Z3Expr.not e).eval env))) = true
  · exact ⟨true, by simp only [Prove, demoZ3, demoSolver, id, h, if_true]; rfl⟩
  · exact ⟨false, by simp only [Prove, demoZ3, demoSolver, id, h, if_false]; rfl⟩

theorem buildCascade_short (p : Pass E) (elifs : List (IfStmt E)) (h : elifs.length < 2) :
    buildCascade p elifs = some p := by
  simp [buildCascade, h]

/-- The run is never longer than the list. -/
theorem gather_length_le {stmts : List (IfStmt E)} {c : Candidates E Env}
    (hg : gather z3 stmts.reverse ⟨[], []⟩ = some c) : c.elifs.length ≤ stmts.length := by
  obtain ⟨A, B, hseg, -, -⟩ := gather_segment hg
  have := congrArg List.length hseg
  simp only [List.length_append, List.length_reverse] at this
  omega

end totality

section semantics

variable {E Env : Type} {z3 : Z3 E Env}

theorem cascadeOf_cons_some (a : Nat) (s : IfStmt E) (l : List (IfStmt E)) :
    ∃ R, cascadeOf a (s :: l) = some R := by
  cases l with
  | nil => exact ⟨_, rfl⟩
  | cons t r => exact ⟨_, rfl⟩

theorem thensOfSeq_cons (env : Env) (s : IfStmt E) (l : List (IfStmt E)) :
    thensOfSeq z3 env (s :: l)
      = if holds z3 env s.cond = true then s.then_ :: thensOfSeq z3 env l
        else thensOfSeq z3 env l := by
  unfold thensOfSeq
  by_cases h : holds z3 env s.cond = true
  · simp [List.filter_cons, h]
  · simp [List.filter_cons, h]

theorem thensOfSeq_eq_nil (env : Env) (l : List (IfStmt E))
    (h : ∀ s ∈ l, ¬ holds z3 env s.cond = true) : thensOfSeq z3 env l = [] := by
  induction l with
  | nil => rfl
  | cons a l ih =>
    rw [thensOfSeq_cons, if_neg (h a (List.mem_cons_self _ _))]
    exact ih (fun s hs => h s (List.mem_cons_of_mem _ hs))

/-- When some guard of a run with pairwise exclusive guards holds, the cascade
and the sequence of independent conditionals execute the same then-branches. -/
theorem thens_agree (env : Env) (run : List (IfStmt E)) (a : Nat) (R : Stmt E)
    (hex : Exclusive z3 run) (hsome : ∃ s ∈ run, holds z3 env s.cond = true)
    (hR : cascadeOf a run = some R) :
    thensOfCascade z3 env R = thensOfSeq z3 env run := by
  induction run generalizing a R with
  | nil => simp at hsome
  | cons s l ih =>
    cases l with
    | nil =>
      obtain ⟨s1, hs1, hh⟩ := hsome
      rw [List.mem_singleton] at hs1
      subst hs1
      simp only [cascadeOf, Option.some.injEq] at hR
      subst hR
      rw [thensOfSeq_cons, if_pos hh]
      rfl
    | cons t r =>
      obtain ⟨R1, hR1⟩ := cascadeOf_cons_some (a + 1) t r
      simp only [cascadeOf] at hR hR1
      rw [hR1, Option.some.injEq] at hR
      subst hR
      unfold Exclusive at hex
      rw [List.pairwise_cons] at hex
      rw [thensOfSeq_cons]
      by_cases hh : holds z3 env s.cond = true
      · rw [if_pos hh]
        rw [thensOfSeq_eq_nil env (t :: r) (fun x hx hx2 => hex.1 x hx env ⟨hh, hx2⟩)]
        simp [thensOfCascade, hh]
      · rw [if_neg hh]
        have hsome2 : ∃ x ∈ t :: r, holds z3 env x.cond = true := by
          obtain ⟨x, hx, hx2⟩ := hsome
          rcases List.mem_cons.1 hx with h | h
          · subst h; exact absurd hx2 hh
          · exact ⟨x, h, hx2⟩
        have := ih (a + 1) R1 hex.2 hsome2 hR1
        simp only [thensOfCascade, hh]
        simpa using this

/-- In a run with pairwise exclusive guards, the sequence of independent
conditionals executes exactly the then-branch of a statement whose guard holds. -/
theorem thensOfSeq_unique (env : Env) (run : List (IfStmt E)) (hex : Exclusive z3 run)
    (k : Nat) (hk : k < run.length) (hh : holds z3 env (run[k]).cond = true) :
    thensOfSeq z3 env run = [(run[k]).then_] := by
  induction run generalizing k with
  | nil => simp at hk
  | cons s l ih =>
    unfold Exclusive at hex
    rw [List.pairwise_cons] at hex
    rw [thensOfSeq_cons]
    cases k with
    | zero =>
      simp only [List.getElem_cons_zero] at hh ⊢
      rw [if_pos hh, thensOfSeq_eq_nil env l (fun x hx hx2 => hex.1 x hx env ⟨hh, hx2⟩)]
    | succ k =>
      simp only [List.getElem_cons_succ] at hh ⊢
      have hk2 : k < l.length := by simpa using hk
      have hs : ¬ holds z3 env s.cond = true :=
        fun h => hex.1 _ (List.getElem_mem hk2) env ⟨h, hh⟩
      rw [if_neg hs]
      exact ih hex.2 k hk2 hh

theorem Exclusive.reverse {l : List (IfStmt E)} (h : Exclusive z3 l) :
    Exclusive z3 l.reverse := by
  unfold Exclusive at h ⊢
  rw [List.pairwise_reverse]
  exact h.imp (fun hab env hba => hab env ⟨hba.2, hba.1⟩)

theorem Exclusive.unique {l : List (IfStmt E)} (h : Exclusive z3 l) (env : Env)
    (j k : Nat) (hj : j < l.length) (hk : k < l.length)
    (h1 : holds z3 env (l[j]).cond = true) (h2 : holds z3 env (l[k]).cond = true) : j = k := by
  unfold Exclusive at h
  rw [List.pairwise_iff_getElem] at h
  rcases Nat.lt_trichotomy j k with hlt | heq | hgt
  · exact absurd ⟨h1, h2⟩ (h j k hj hk hlt env)
  · exact heq
  · exact absurd ⟨h2, h1⟩ (h k j hk hj hgt env)

/-- The run left by the gather loop has pairwise exclusive guards (sound prover). -/
theorem gather_exclusive (hp : ProveSound z3) {stmts : List (IfStmt E)} {c : Candidates E Env}
    (hg : gather z3 stmts.reverse ⟨[], []⟩ = some c) : Exclusive z3 c.elifs := by
  obtain ⟨scanned, rest, -, hscan, -⟩ := gather_eq_some hg
  exact hscan.exclusive hp rfl List.Pairwise.nil

theorem gather_conds_eq {stmts : List (IfStmt E)} {c : Candidates E Env}
    (hg : gather z3 stmts.reverse ⟨[], []⟩ = some c) : c.conds = c.elifs.map (GetZ3Cond z3) := by
  obtain ⟨scanned, rest, -, hscan, -⟩ := gather_eq_some hg
  exact hscan.conds_eq rfl

/-- The solver of the example world is an exact validity oracle. -/
theorem demoZ3_exact : ProveExact demoZ3 := by
  intro e
  have hall : ∀ env : Fin 5, env ∈ ([0, 1, 2, 3, 4] : List (Fin 5)) := by decide
  by_cases h : (([0, 1, 2, 3, 4] : List (Fin 5)).all
      (fun env => !((Z3Expr.not e).eval env))) = true
  · refine ⟨true, by simp only [Prove, demoZ3, demoSolver, id, h, if_true]; rfl, ?_⟩
    refine ⟨fun _ env => ?_, fun _ => rfl⟩
    have := List.all_eq_true.1 h env (hall env)
    simpa [Z3Expr.eval] using this
  · refine ⟨false, by simp only [Prove, demoZ3, demoSolver, id, h, if_false]; rfl, ?_⟩
    refine ⟨fun hf => Bool.noConfusion hf, fun hv => ?_⟩
    exfalso
    apply h
    rw [List.all_eq_true]
    intro env _
    simp [Z3Expr.eval, hv env]

theorem ProveExact.sound (h : ProveExact z3) : ProveSound z3 := by
  intro e he
  obtain ⟨b, hb, hiff⟩ := h e
  rw [hb, Option.some.injEq] at he
  exact hiff.1 he

end semantics

section positions

variable {α : Type}

/-- In a list without duplicates, an element of a middle segment sits at an
index of that segment. -/
theorem index_of_mem_segment (A R B : List α) (hnd : (A ++ R ++ B).Nodup) (idx : Nat)
    (h : idx < (A ++ R ++ B).length) (hm : (A ++ R ++ B)[idx] ∈ R) :
    A.length ≤ idx ∧ idx < A.length + R.length := by
  have hd1 : List.Disjoint A R := (List.nodup_append.1 (List.nodup_append.1 hnd).1).2.2
  have hd2 : List.Disjoint (A ++ R) B := (List.nodup_append.1 hnd).2.2
  constructor
  · by_contra hlt
    have hlt : idx < A.length := by omega
    have h1 : idx < (A ++ R).length := by rw [List.length_append]; omega
    rw [List.getElem_append_left h1, List.getElem_append_left hlt] at hm
    exact hd1 (List.getElem_mem hlt) hm
  · by_contra hge
    have hge : (A ++ R).length ≤ idx := by rw [List.length_append]; omega
    rw [List.getElem_append_right hge] at hm
    exact hd2 (List.mem_append_right _ hm) (List.getElem_mem _)

theorem getElem_segment (A R B : List α) (idx : Nat) (h1 : A.length ≤ idx)
    (h2 : idx < A.length + R.length) (h : idx < (A ++ R ++ B).length)
    (h3 : idx - A.length < R.length) :
    (A ++ R ++ B)[idx] = R[idx - A.length] := by
  have h4 : idx < (A ++ R).length := by rw [List.length_append]; omega
  rw [List.getElem_append_left h4, List.getElem_append_right h1]

end positions

theorem lastBranch_cascadeOf {E : Type} (a : Nat) (s1 : IfStmt E) (mid : List (IfStmt E))
    (sn : IfStmt E) :
    (cascadeOf a (s1 :: (mid ++ [sn]))).map lastBranch
      = some (.CompoundStmt (a + (mid.length + 1)) [sn.then_]) := by
  induction mid generalizing a s1 with
  | nil => rfl
  | cons m r ih =>
    have h := ih (a + 1) m
    obtain ⟨R, hR⟩ := cascadeOf_cons_some (a + 1) m (r ++ [sn])
    rw [hR, Option.map_some', Option.some.injEq] at h
    rw [List.cons_append]
    simp only [cascadeOf]
    rw [hR, Option.map_some', Option.some.injEq]
    simp only [lastBranch, h, List.length_cons]
    congr 1
    omega

section block_lemmas

variable {E Env : Type} {z3 : Z3 E Env}

theorem dyn_cast_IfStmt_addr {ch : Stmt E} {s : IfStmt E} (h : dyn_cast_IfStmt ch = some s) :
    s.addr = ch.addr ∧ ch = s.toStmt := by
  cases ch with
  | IfStmt a c t e =>
    simp only [dyn_cast_IfStmt, Option.some.injEq] at h
    subst h
    exact ⟨rfl, rfl⟩
  | CompoundStmt a b => simp [dyn_cast_IfStmt] at h
  | Other a => simp [dyn_cast_IfStmt] at h

theorem GetIfStmts_addr_sublist (body : List (Stmt E)) :
    ((GetIfStmts body).map IfStmt.addr).Sublist (body.map Stmt.addr) := by
  induction body with
  | nil => exact List.Sublist.slnil
  | cons ch l ih =>
    cases h : dyn_cast_IfStmt ch with
    | none =>
      simp only [GetIfStmts, List.filterMap_cons, h, List.map_cons]
      exact List.Sublist.cons _ ih
    | some s =>
      simp only [GetIfStmts, List.filterMap_cons, h, List.map_cons]
      rw [(dyn_cast_IfStmt_addr h).1]
      exact List.Sublist.cons₂ _ ih

theorem mem_GetIfStmts {body : List (Stmt E)} {s : IfStmt E} (h : s ∈ GetIfStmts body) :
    s.toStmt ∈ body := by
  simp only [GetIfStmts, List.mem_filterMap] at h
  obtain ⟨ch, hch, hd⟩ := h
  rw [← (dyn_cast_IfStmt_addr hd).2]
  exact hch

/-- Without keys among the children, `ReplaceChildren` changes nothing. -/
theorem ReplaceChildren_no_keys (body : List (Stmt E)) (m : StmtMap E)
    (h : ∀ ch ∈ body, m ch.addr = none) :
    ReplaceChildren body m = (body.map some, false) := by
  unfold ReplaceChildren
  refine Prod.ext ?_ ?_
  · apply List.map_congr_left
    intro ch hch
    simp [h ch hch]
  · show (body.any fun ch => (m ch.addr).isSome) = false
    rw [List.any_eq_false]
    intro ch hch
    simp [h ch hch]

/-- The rebuilt child sequence: the non-null children after `ReplaceChildren`. -/
theorem ReplaceChildren_filterMap (body : List (Stmt E)) (m : StmtMap E) :
    (ReplaceChildren body m).1.filterMap (fun stmt => stmt)
      = body.filterMap (fun ch =>
          match m ch.addr with
          | some v => v
          | none => some ch) := by
  unfold ReplaceChildren
  simp only [List.filterMap_map]
  rfl

theorem VisitCompoundStmt_replaced {p p1 : Pass E} {addr : Nat} {body : List (Stmt E)}
    (h : CreateIfElseStmts z3 p (GetIfStmts body) = some p1)
    (hr : (ReplaceChildren body p1.substitutions).2 = true) :
    VisitCompoundStmt z3 p addr body
      = some ({ p1 with
                  substitutions := Function.update p1.substitutions addr
                    (some (some (.CompoundStmt p1.ast_ctx
                      ((ReplaceChildren body p1.substitutions).1.filterMap (fun stmt => stmt)))))
                  ast_ctx := p1.ast_ctx + 1 },
              (ReplaceChildren body p1.substitutions).1) := by
  simp only [VisitCompoundStmt, h, hr, if_true, CreateCompoundStmt]

theorem VisitCompoundStmt_untouched {p p1 : Pass E} {addr : Nat} {body : List (Stmt E)}
    (h : CreateIfElseStmts z3 p (GetIfStmts body) = some p1)
    (hno : ∀ ch ∈ body, p1.substitutions ch.addr = none) :
    VisitCompoundStmt z3 p addr body = some (p1, body.map some) := by
  simp only [VisitCompoundStmt, h, ReplaceChildren_no_keys body _ hno]
  simp

end block_lemmas

section second_application

variable {E Env : Type} {z3 : Z3 E Env}

theorem Scan.split {c0 c : Candidates E Env} (xs ys : List (IfStmt E))
    (h : Scan z3 c0 (xs ++ ys) c) : ∃ cm, Scan z3 c0 xs cm ∧ Scan z3 cm ys c := by
  induction xs generalizing c0 with
  | nil => exact ⟨c0, Scan.done _, h⟩
  | cons x xs ih =>
    rw [List.cons_append] at h
    cases h with
    | keep hk hr =>
      obtain ⟨cm, h1, h2⟩ := ih hr
      exact ⟨cm, Scan.keep hk h1, h2⟩
    | clear hc hr =>
      obtain ⟨cm, h1, h2⟩ := ih hr
      exact ⟨cm, Scan.clear hc h1, h2⟩

theorem Scan.append {c0 cm c : Candidates E Env} {xs ys : List (IfStmt E)}
    (h1 : Scan z3 c0 xs cm) (h2 : Scan z3 cm ys c) : Scan z3 c0 (xs ++ ys) c := by
  induction h1 with
  | done c => exact h2
  | keep hk _ ih => exact Scan.keep hk (ih h2)
  | clear hc _ ih => exact Scan.clear hc (ih h2)

theorem Scan.head_not_taut {c0 c : Candidates E Env} {x : IfStmt E} {xs : List (IfStmt E)}
    (h : Scan z3 c0 (x :: xs) c) : IsTautology z3 c0.conds = some false := by
  cases h with
  | keep hk _ => exact hk.1
  | clear hc _ => exact hc.1

/-- A segment that starts with the head of a duplicate-free list is an initial
segment. -/
theorem segment_at_head {A run B : List (IfStmt E)}
    (hnd : ((A ++ run ++ B).map IfStmt.addr).Nodup) (hne : run ≠ [])
    (hh : (A ++ run ++ B).head? = run.head?) : A = [] := by
  cases A with
  | nil => rfl
  | cons a A1 =>
    exfalso
    obtain ⟨s1, rest, hrun⟩ := List.exists_cons_of_ne_nil hne
    subst hrun
    simp only [List.cons_append, List.head?_cons, Option.some.injEq] at hh
    subst hh
    simp at hnd

theorem GetIfStmts_cons_none {ch : Stmt E} (l : List (Stmt E))
    (h : dyn_cast_IfStmt ch = none) : GetIfStmts (ch :: l) = GetIfStmts l := by
  simp [GetIfStmts, List.filterMap_cons, h]

theorem GetIfStmts_cons_some {ch : Stmt E} {s : IfStmt E} (l : List (Stmt E))
    (h : dyn_cast_IfStmt ch = some s) : GetIfStmts (ch :: l) = s :: GetIfStmts l := by
  simp [GetIfStmts, List.filterMap_cons, h]

theorem filterMap_cons_eq_none {α β : Type} {f : α → Option β} {a : α} (l : List α)
    (h : f a = none) : (a :: l).filterMap f = l.filterMap f := by
  simp [List.filterMap_cons, h]

theorem filterMap_cons_eq_some {α β : Type} {f : α → Option β} {a : α} {b : β} (l : List α)
    (h : f a = some b) : (a :: l).filterMap f = b :: l.filterMap f := by
  simp [List.filterMap_cons, h]

/-- The conditional children of a rebuilt block. -/
theorem GetIfStmts_filterMap (body : List (Stmt E)) (k1 : Nat) (R1 : Stmt E) (dels : List Nat)
    (H : ∀ ch ∈ body, dyn_cast_IfStmt ch = none → ch.addr ≠ k1) :
    GetIfStmts (body.filterMap (fun ch =>
        if ch.addr = k1 then some R1 else if ch.addr ∈ dels then none else some ch))
      = (GetIfStmts body).filterMap (fun s =>
          if s.addr = k1 then dyn_cast_IfStmt R1
          else if s.addr ∈ dels then none else some s) := by
  induction body with
  | nil => rfl
  | cons ch l ih =>
    have ih2 := ih (fun x hx => H x (List.mem_cons_of_mem _ hx))
    cases hd : dyn_cast_IfStmt ch with
    | none =>
      have h1 : ch.addr ≠ k1 := H ch (List.mem_cons_self _ _) hd
      rw [GetIfStmts_cons_none l hd]
      by_cases h2 : ch.addr ∈ dels
      · rw [filterMap_cons_eq_none l (by simp only [h1, h2, if_false, if_true])]
        exact ih2
      · rw [filterMap_cons_eq_some l (b := ch) (by simp only [h1, h2, if_false]),
          GetIfStmts_cons_none _ hd]
        exact ih2
    | some s =>
      obtain ⟨ha, hs⟩ := dyn_cast_IfStmt_addr hd
      rw [GetIfStmts_cons_some l hd]
      by_cases h1 : ch.addr = k1
      · rw [filterMap_cons_eq_some l (b := R1) (by simp only [h1, if_true])]
        cases hR : dyn_cast_IfStmt R1 with
        | none =>
          rw [GetIfStmts_cons_none _ hR,
            filterMap_cons_eq_none _ (by simp only [ha, h1, if_true, hR])]
          simp only [hR] at ih2
          exact ih2
        | some r =>
          rw [GetIfStmts_cons_some _ hR,
            filterMap_cons_eq_some _ (b := r) (by simp only [ha, h1, if_true, hR])]
          simp only [hR] at ih2
          rw [ih2]
      · by_cases h2 : ch.addr ∈ dels
        · rw [filterMap_cons_eq_none l (by simp only [h1, h2, if_false, if_true]),
            filterMap_cons_eq_none _ (by simp only [ha, h1, h2, if_false, if_true])]
          exact ih2
        · rw [filterMap_cons_eq_some l (b := ch) (by simp only [h1, h2, if_false]),
            filterMap_cons_eq_some _ (b := s) (by simp only [ha, h1, h2, if_false]),
            GetIfStmts_cons_some _ hd, ih2]

theorem filterMap_run (s1 : IfStmt E) (rest B : List (IfStmt E)) (r : Option (IfStmt E))
    (hnd : ((s1 :: rest ++ B).map IfStmt.addr).Nodup) :
    (s1 :: rest ++ B).filterMap (fun s =>
        if s.addr = s1.addr then r
        else if s.addr ∈ rest.map IfStmt.addr then none else some s)
      = r.toList ++ B := by
  simp only [List.cons_append, List.map_cons, List.map_append, List.nodup_cons,
    List.mem_append, List.mem_map, not_or, not_exists, not_and, List.nodup_append] at hnd
  obtain ⟨⟨h1r, h1b⟩, -, -, hdisj⟩ := hnd
  have hrest : rest.filterMap (fun s =>
      if s.addr = s1.addr then r
      else if s.addr ∈ rest.map IfStmt.addr then none else some s) = [] := by
    rw [List.filterMap_eq_nil_iff]
    intro x hx
    have : x.addr ≠ s1.addr := h1r x hx
    simp only [this, if_false]
    rw [if_pos (List.mem_map.2 ⟨x, hx, rfl⟩)]
  have hB : B.filterMap (fun s =>
      if s.addr = s1.addr then r
      else if s.addr ∈ rest.map IfStmt.addr then none else some s) = B := by
    have hc : B.filterMap (fun s =>
        if s.addr = s1.addr then r
        else if s.addr ∈ rest.map IfStmt.addr then none else some s)
        = B.filterMap some := by
      apply List.filterMap_congr
      intro x hx
      have h1 : x.addr ≠ s1.addr := h1b x hx
      have h2 : x.addr ∉ rest.map IfStmt.addr := by
        intro hm
        exact hdisj hm (List.mem_map.2 ⟨x, hx, rfl⟩)
      simp only [h1, h2, if_false]
    rw [hc, List.filterMap_some]
  rw [List.cons_append, List.filterMap_cons, List.filterMap_append, hrest, hB]
  simp only [if_true, List.nil_append]
  cases r <;> rfl

end second_application

section rebuild

variable {E Env : Type} {z3 : Z3 E Env}

/-- What `VisitCompoundStmt` registers for a block whose conditional children
yield a run of at least two statements. -/
theorem VisitCompoundStmt_run (p : Pass E) (addr : Nat) {body : List (Stmt E)}
    {c : Candidates E Env}
    (hg : gather z3 (GetIfStmts body).reverse ⟨[], []⟩ = some c) (hn : 2 ≤ c.elifs.length)
    (hnd : (body.map Stmt.addr).Nodup)
    (hother : ∀ ch ∈ body, ch.addr ∉ c.elifs.map IfStmt.addr → p.substitutions ch.addr = none) :
    ∃ s1 mid sn R1 p1 body1, c.elifs.reverse = s1 :: (mid ++ [sn]) ∧
      cascadeOf p.ast_ctx (s1 :: (mid ++ [sn])) = some R1 ∧
      VisitCompoundStmt z3 p addr body = some (p1, body1) ∧
      p1.substitutions addr
        = some (some (.CompoundStmt (p.ast_ctx + c.elifs.length)
            (body.filterMap (fun ch =>
              if ch.addr = s1.addr then some R1
              else if ch.addr ∈ (mid ++ [sn]).map IfStmt.addr then none
              else some ch)))) := by
  have hnd2 : ((GetIfStmts body).map IfStmt.addr).Nodup :=
    List.Nodup.sublist (GetIfStmts_addr_sublist body) hnd
  obtain ⟨s1, mid, sn, hrun, h⟩ := CreateIfElseStmts_run p hg hn hnd2
  obtain ⟨R1, hR1⟩ := cascadeOf_cons_some p.ast_ctx s1 (mid ++ [sn])
  obtain ⟨A, B, hseg, -, -⟩ := gather_segment hg
  have hs1 : s1.toStmt ∈ body := by
    apply mem_GetIfStmts
    rw [hseg, hrun]
    simp
  have hany : (ReplaceChildren body
      (fun k => if k = s1.addr then some (cascadeOf p.ast_ctx c.elifs.reverse)
        else if k ∈ (mid ++ [sn]).map IfStmt.addr then some none
        else p.substitutions k)).2 = true := by
    show (body.any _) = true
    rw [List.any_eq_true]
    exact ⟨s1.toStmt, hs1, by simp [IfStmt.toStmt, Stmt.addr]⟩
  have hmem : ∀ k, k ∈ c.elifs.map IfStmt.addr ↔
      (k = s1.addr ∨ k ∈ (mid ++ [sn]).map IfStmt.addr) := by
    intro k
    have : c.elifs.map IfStmt.addr = ((s1 :: (mid ++ [sn])).map IfStmt.addr).reverse := by
      rw [← hrun, List.map_reverse, List.reverse_reverse]
    rw [this, List.mem_reverse, List.map_cons, List.mem_cons]
  have hv := @VisitCompoundStmt_replaced _ _ z3 p _ addr body h hany
  refine ⟨s1, mid, sn, R1, _, _, hrun, hR1, hv, ?_⟩
  simp only [Function.update_same, Option.some.injEq]
  rw [ReplaceChildren_filterMap]
  refine congrArg₂ _ rfl ?_
  apply List.filterMap_congr
  intro ch hch
  by_cases h1 : ch.addr = s1.addr
  · simp [h1, hrun, hR1]
  · by_cases h2 : ch.addr ∈ (mid ++ [sn]).map IfStmt.addr
    · simp only [h1, h2, if_false, if_true]
    · have := hother ch hch (fun hc => by
        rcases (hmem _).1 hc with h3 | h3
        · exact h1 h3
        · exact h2 h3)
      simp only [h1, h2, if_false, this]

theorem cascadeOf_two (a : Nat) (s1 t : IfStmt E) (r : List (IfStmt E)) :
    ∃ R2, cascadeOf a (s1 :: t :: r) = some (.IfStmt a s1.cond s1.then_ (some R2)) := by
  obtain ⟨R2, hR2⟩ := cascadeOf_cons_some (a + 1) t r
  exact ⟨R2, by simp only [cascadeOf]; rw [hR2]⟩

end rebuild

section traversal

variable {E Env : Type} {z3 : Z3 E Env}

theorem cascadeStep_chain {back front : Nat} {st st1 : Cascade E} {s : IfStmt E}
    (h : cascadeStep back front st s = some st1) : st1.chain ≠ [] := by
  by_cases h1 : s.addr = back
  · rw [cascadeStep_first back front s st h1, Option.some.injEq] at h
    rw [← h]; simp
  · cases hc : st.chain with
    | nil =>
      exfalso
      unfold cascadeStep at h
      rw [if_neg h1] at h
      by_cases h2 : s.addr = front
      · rw [if_pos h2] at h
        simp [hc] at h
      · rw [if_neg h2] at h
        simp [hc] at h
    | cons x xs =>
      have hne : st.chain ≠ [] := by rw [hc]; simp
      by_cases h2 : s.addr = front
      · rw [cascadeStep_last back front s st h1 h2 hne, Option.some.injEq] at h
        rw [← h]; exact hne
      · rw [cascadeStep_mid back front s st h1 h2 hne, Option.some.injEq] at h
        rw [← h]; simp

theorem cascadeStep_total (back front : Nat) (st : Cascade E) (s : IfStmt E)
    (h : st.chain ≠ [] ∨ s.addr = back) : ∃ st1, cascadeStep back front st s = some st1 := by
  by_cases h1 : s.addr = back
  · exact ⟨_, cascadeStep_first back front s st h1⟩
  · have hne : st.chain ≠ [] := h.resolve_right h1
    by_cases h2 : s.addr = front
    · exact ⟨_, cascadeStep_last back front s st h1 h2 hne⟩
    · exact ⟨_, cascadeStep_mid back front s st h1 h2 hne⟩

theorem cascadeLoop_total (back front : Nat) (l : List (IfStmt E)) (st : Cascade E)
    (h : st.chain ≠ [] ∨ (l.head?.map IfStmt.addr = some back)) :
    ∃ st1, cascadeLoop back front l st = some st1 := by
  induction l generalizing st with
  | nil => exact ⟨st, rfl⟩
  | cons s r ih =>
    have hs : st.chain ≠ [] ∨ s.addr = back := by
      rcases h with h | h
      · exact Or.inl h
      · right; simpa using h
    obtain ⟨st1, h1⟩ := cascadeStep_total back front st s hs
    rw [cascadeLoop_cons, h1, Option.some_bind]
    exact ih st1 (Or.inl (cascadeStep_chain h1))

/-- The cascade builder always returns and leaves `changed` alone. -/
theorem buildCascade_total (p : Pass E) (elifs : List (IfStmt E)) :
    ∃ p1, buildCascade p elifs = some p1 ∧ p1.changed = p.changed := by
  unfold buildCascade
  by_cases hl : elifs.length < 2
  · exact ⟨p, by simp [hl], rfl⟩
  · simp only [hl, if_false]
    cases hb : elifs.getLast? with
    | none => exact ⟨p, rfl, rfl⟩
    | some back =>
      cases hf : elifs.head? with
      | none => exact ⟨p, rfl, rfl⟩
      | some front =>
        have hh : elifs.reverse.head?.map IfStmt.addr = some back.addr := by
          rw [List.head?_reverse, hb]; rfl
        obtain ⟨st, hst⟩ := cascadeLoop_total back.addr front.addr elifs.reverse
          ⟨[], none, p.substitutions, p.ast_ctx⟩ (Or.inr hh)
        simp only [hst]
        exact ⟨_, rfl, rfl⟩

theorem CreateIfElseStmts_total (hp : ∀ e, ∃ b, Prove z3 e = some b) (p : Pass E)
    (stmts : List (IfStmt E)) :
    ∃ p1, CreateIfElseStmts z3 p stmts = some p1 ∧ p1.changed = p.changed := by
  obtain ⟨c, hc⟩ := gather_total hp stmts.reverse ⟨[], []⟩
  simp only [CreateIfElseStmts, hc]
  exact buildCascade_total p c.elifs

theorem CreateIfElseStmts_changed {p p1 : Pass E} {stmts : List (IfStmt E)}
    (h : CreateIfElseStmts z3 p stmts = some p1) : p1.changed = p.changed := by
  unfold CreateIfElseStmts at h
  cases hc : gather z3 stmts.reverse ⟨[], []⟩ with
  | none => simp [hc] at h
  | some c =>
    simp only [hc] at h
    obtain ⟨p2, h2, h3⟩ := buildCascade_total p c.elifs
    rw [h2, Option.some.injEq] at h
    rw [← h]; exact h3

theorem VisitCompoundStmt_changed {p p1 : Pass E} {addr : Nat} {body : List (Stmt E)}
    {body1 : List (Option (Stmt E))}
    (h : VisitCompoundStmt z3 p addr body = some (p1, body1)) : p1.changed = p.changed := by
  cases hc : CreateIfElseStmts z3 p (GetIfStmts body) with
  | none => simp [VisitCompoundStmt, hc] at h
  | some q =>
    have hq := CreateIfElseStmts_changed hc
    cases hr : (ReplaceChildren body q.substitutions).2 with
    | true =>
      rw [VisitCompoundStmt_replaced hc hr, Option.some.injEq, Prod.mk.injEq] at h
      rw [← h.1]; exact hq
    | false =>
      simp only [VisitCompoundStmt, hc, hr, Bool.false_eq_true, if_false, Option.some.injEq,
        Prod.mk.injEq] at h
      rw [← h.1]; exact hq

theorem VisitCompoundStmt_total (hp : ∀ e, ∃ b, Prove z3 e = some b) (p : Pass E) (addr : Nat)
    (body : List (Stmt E)) : ∃ r, VisitCompoundStmt z3 p addr body = some r := by
  obtain ⟨q, hq, -⟩ := CreateIfElseStmts_total hp p (GetIfStmts body)
  cases hr : (ReplaceChildren body q.substitutions).2 with
  | true => exact ⟨_, VisitCompoundStmt_replaced hq hr⟩
  | false =>
    refine ⟨(q, (ReplaceChildren body q.substitutions).1), ?_⟩
    simp only [VisitCompoundStmt, hq, hr, Bool.false_eq_true, if_false]

end traversal

section prover

variable {E Env : Type} {z3 : Z3 E Env}

theorem Prove_of_single {e : Z3Expr Env} {g : Goal}
    (h : z3.z3_solver (z3.simplify (.not e)) = [g]) : Prove z3 e = some g.is_decided_unsat := by
  simp only [Prove, h]

theorem Prove_eq_none_iff (e : Z3Expr Env) :
    Prove z3 e = none ↔ (z3.z3_solver (z3.simplify (.not e))).length ≠ 1 := by
  cases h : z3.z3_solver (z3.simplify (.not e)) with
  | nil => simp [Prove, h]
  | cons g l =>
    cases l with
    | nil => simp [Prove, h]
    | cons g2 l2 => simp [Prove, h]

/-- An exact solver behind a meaning-preserving simplifier makes `Prove` an
exact validity oracle. -/
theorem ProveExact_of_solver (hs : SolverExact z3) (hsimp : SimplifySound z3) :
    ProveExact z3 := by
  intro e
  by_cases hv : ∀ env, e.eval env = true
  · have hu : ∀ env, (z3.simplify (.not e)).eval env = false := by
      intro env
      rw [hsimp]
      simp [Z3Expr.eval, hv env]
    refine ⟨true, ?_, fun _ => hv, fun _ => rfl⟩
    rw [Prove_of_single ((hs _).1 hu)]
    rfl
  · have hx : ∃ env, (z3.simplify (.not e)).eval env = true := by
      rw [not_forall] at hv
      obtain ⟨env, henv⟩ := hv
      refine ⟨env, ?_⟩
      rw [hsimp]
      simpa [Z3Expr.eval] using henv
    refine ⟨false, ?_, fun h => Bool.noConfusion h, fun h => absurd h hv⟩
    rw [Prove_of_single ((hs _).2 hx)]
    rfl

theorem IsUnrechable_exact (hp : ProveExact z3) (conds : List (Z3Expr Env))
    (cond : Z3Expr Env) :
    ∃ b, IsUnrechable z3 conds cond = some b ∧
      (b = true ↔ ∀ env, ¬(cond.eval env = true ∧ (mk_or conds).eval env = true)) := by
  obtain ⟨b, hb, hiff⟩ := hp (.not (.and cond (mk_or conds)))
  refine ⟨b, hb, hiff.trans ?_⟩
  apply forall_congr'
  intro env
  simp only [Z3Expr.eval]
  cases cond.eval env <;> cases (mk_or conds).eval env <;> simp

theorem IsTautology_exact (hp : ProveExact z3) (conds : List (Z3Expr Env)) :
    ∃ b, IsTautology z3 conds = some b ∧
      (b = true ↔ ∀ env, (mk_or conds).eval env = true) := by
  obtain ⟨b, hb, hiff⟩ := hp (.eq (mk_or conds) (.bool_val true))
  refine ⟨b, hb, hiff.trans ?_⟩
  apply forall_congr'
  intro env
  simp [Z3Expr.eval]

/-- With an exact prover the tautology test fails on formulas that are not valid. -/
theorem IsTautology_eq_false (hp : ProveExact z3) {conds : List (Z3Expr Env)}
    (h : ¬ ∀ env, (mk_or conds).eval env = true) : IsTautology z3 conds = some false := by
  obtain ⟨b, hb, hiff⟩ := IsTautology_exact hp conds
  cases b with
  | true => exact absurd (hiff.1 rfl) h
  | false => exact hb

theorem IsTautology_eq_true (hp : ProveExact z3) {conds : List (Z3Expr Env)}
    (h : ∀ env, (mk_or conds).eval env = true) : IsTautology z3 conds = some true := by
  obtain ⟨b, hb, hiff⟩ := IsTautology_exact hp conds
  rw [hb, hiff.2 h]

theorem IsUnrechable_eq_true (hp : ProveExact z3) {conds : List (Z3Expr Env)}
    {cond : Z3Expr Env}
    (h : ∀ env, ¬(cond.eval env = true ∧ (mk_or conds).eval env = true)) :
    IsUnrechable z3 conds cond = some true := by
  obtain ⟨b, hb, hiff⟩ := IsUnrechable_exact hp conds cond
  rw [hb, hiff.2 h]

theorem IsTautology_nil (hp : ProveExact z3) [Inhabited Env] :
    IsTautology z3 [] = some false := by
  apply IsTautology_eq_false hp
  intro h
  have := h default
  simp [mk_or, Z3Expr.eval] at this

theorem IsUnrechable_nil (hp : ProveExact z3) (cond : Z3Expr Env) :
    IsUnrechable z3 [] cond = some true := by
  apply IsUnrechable_eq_true hp
  intro env
  simp [mk_or, Z3Expr.eval]

/-- The solver of the example world decides satisfiability exactly. -/
theorem demoZ3_solverExact : SolverExact demoZ3 := by
  intro g
  have hall : ∀ env : Fin 5, env ∈ ([0, 1, 2, 3, 4] : List (Fin 5)) := by decide
  constructor
  · intro h
    have : (([0, 1, 2, 3, 4] : List (Fin 5)).all (fun env => !(g.eval env))) = true := by
      rw [List.all_eq_true]
      intro env _
      simp [h env]
    simp only [demoZ3, demoSolver, this, if_true]
  · rintro ⟨env, henv⟩
    have : ¬ (([0, 1, 2, 3, 4] : List (Fin 5)).all (fun env => !(g.eval env))) = true := by
      intro hc
      have := List.all_eq_true.1 hc env (hall env)
      simp [henv] at this
    simp only [demoZ3, demoSolver]
    rw [if_neg this]

theorem demoZ3_simplifySound : SimplifySound demoZ3 := fun _ _ => rfl

end prover

section last_guard

variable {E Env : Type} {z3 : Z3 E Env}

/-- The first iteration of the gather loop leaves the statement it scans as
the only candidate. -/
theorem gather_first (sn : IfStmt E) (rest : List (IfStmt E))
    (h0 : IsTautology z3 [] = some false)
    (hu : sn.else_.isSome = true ∨ ∃ b, IsUnrechable z3 [] (GetZ3Cond z3 sn) = some b) :
    gather z3 (sn :: rest) ⟨[], []⟩ = gather z3 rest ⟨[sn], [GetZ3Cond z3 sn]⟩ := by
  by_cases he : sn.else_.isSome = true
  · exact gather_cons_clear rest ⟨h0, Or.inl he⟩
  · obtain ⟨b, hb⟩ := hu.resolve_left he
    cases b with
    | true =>
      have he2 : sn.else_ = none := by
        cases hs : sn.else_ with
        | none => rfl
        | some v => simp [hs] at he
      exact gather_cons_keep rest ⟨h0, he2, hb⟩
    | false => exact gather_cons_clear rest ⟨h0, Or.inr hb⟩

/-- When the guard of the source-last statement is proved a tautology, the scan
stops with that statement alone and nothing is recorded. -/
theorem gather_last_tautology (p : Pass E) (front : List (IfStmt E)) (sn : IfStmt E)
    (h0 : IsTautology z3 [] = some false)
    (hu : sn.else_.isSome = true ∨ ∃ b, IsUnrechable z3 [] (GetZ3Cond z3 sn) = some b)
    (ht : IsTautology z3 [GetZ3Cond z3 sn] = some true) :
    gather z3 (front ++ [sn]).reverse ⟨[], []⟩ = some ⟨[sn], [GetZ3Cond z3 sn]⟩ ∧
    CreateIfElseStmts z3 p (front ++ [sn]) = some p := by
  have hg : gather z3 (front ++ [sn]).reverse ⟨[], []⟩ = some ⟨[sn], [GetZ3Cond z3 sn]⟩ := by
    rw [List.reverse_append, List.reverse_singleton, List.singleton_append,
      gather_first sn _ h0 hu]
    cases front.reverse with
    | nil => rfl
    | cons x xs => exact gather_cons_break x xs ht
  refine ⟨hg, ?_⟩
  simp only [CreateIfElseStmts, hg]
  exact buildCascade_short p _ (by simp)

/-- A sound prover does not prove the empty disjunction a tautology. -/
theorem IsTautology_nil_ne_true (hp : ProveSound z3) [Inhabited Env] :
    IsTautology z3 [] ≠ some true := by
  intro h
  have := IsTautology_sound hp h default
  simp [mk_or, Z3Expr.eval] at this

theorem IsTautology_nil_of_sound (hp : ProveSound z3) (hans : ∀ e, ∃ b, Prove z3 e = some b)
    [Inhabited Env] : IsTautology z3 [] = some false := by
  obtain ⟨b, hb⟩ := hans (.eq (mk_or []) (.bool_val true))
  cases b with
  | true => exact absurd hb (IsTautology_nil_ne_true hp)
  | false => exact hb

end last_guard

section overlap

variable {E Env : Type} {z3 : Z3 E Env}

/-- With a sound prover, two statements whose guards can hold together never
form a run. -/
theorem gather_two_overlapping (hp : ProveSound z3) {a b : IfStmt E} {c : Candidates E Env}
    (hg : gather z3 [a, b].reverse ⟨[], []⟩ = some c)
    (hov : ∃ env, holds z3 env a.cond = true ∧ holds z3 env b.cond = true) :
    c.elifs.length < 2 := by
  by_contra hlen
  have hle := gather_length_le hg
  simp only [List.length_cons, List.length_nil] at hle
  have h2 : c.elifs.length = 2 := by omega
  obtain ⟨A, B, hseg, -, -⟩ := gather_segment hg
  have hl := congrArg List.length hseg
  simp only [List.length_cons, List.length_nil, List.length_append, List.length_reverse,
    h2] at hl
  have hA : A = [] := List.length_eq_zero.1 (by omega)
  have hB : B = [] := List.length_eq_zero.1 (by omega)
  subst hA hB
  simp only [List.nil_append, List.append_nil] at hseg
  have hex : Exclusive z3 c.elifs.reverse := (gather_exclusive hp hg).reverse
  rw [← hseg] at hex
  unfold Exclusive at hex
  rw [List.pairwise_cons] at hex
  obtain ⟨env, h1, h2⟩ := hov
  exact hex.1 b (List.mem_singleton.2 rfl) env ⟨h1, h2⟩

end overlap

section which_run

variable {E Env : Type} {z3 : Z3 E Env}

theorem gatherRest_cons_break {c : Candidates E Env} (stmt : IfStmt E)
    (rest : List (IfStmt E)) (h : IsTautology z3 c.conds = some true) :
    gatherRest z3 (stmt :: rest) c = some (c, stmt :: rest) := by
  simp [gatherRest, h]

theorem gatherRest_cons_keep {c : Candidates E Env} {stmt : IfStmt E}
    (rest : List (IfStmt E)) (h : Keeps z3 c stmt) :
    gatherRest z3 (stmt :: rest) c
      = gatherRest z3 rest ⟨c.elifs ++ [stmt], c.conds ++ [GetZ3Cond z3 stmt]⟩ := by
  obtain ⟨h1, h2, h3⟩ := h
  simp [gatherRest, h1, h2, h3]

theorem gatherRest_cons_clear {c : Candidates E Env} {stmt : IfStmt E}
    (rest : List (IfStmt E)) (h : Clears z3 c stmt) :
    gatherRest z3 (stmt :: rest) c = gatherRest z3 rest ⟨[stmt], [GetZ3Cond z3 stmt]⟩ := by
  obtain ⟨h1, h2⟩ := h
  rcases h2 with h2 | h2
  · simp [gatherRest, h1, h2]
  · by_cases he : stmt.else_.isSome = true
    · simp [gatherRest, h1, he]
    · simp [gatherRest, h1, he, h2]

/-- What the instrumented loop returns: the result of `gather`, after a scan of
the statements before the unscanned rest. -/
theorem gatherRest_eq_some {xs rest : List (IfStmt E)} {c0 c : Candidates E Env}
    (h : gatherRest z3 xs c0 = some (c, rest)) :
    gather z3 xs c0 = some c ∧
    ∃ scanned, xs = scanned ++ rest ∧ Scan z3 c0 scanned c ∧
      (rest ≠ [] → IsTautology z3 c.conds = some true) := by
  induction xs generalizing c0 with
  | nil =>
    simp only [gatherRest, Option.some.injEq, Prod.mk.injEq] at h
    obtain ⟨h1, h2⟩ := h
    subst h1 h2
    exact ⟨rfl, [], rfl, Scan.done _, fun hne => absurd rfl hne⟩
  | cons stmt tl ih =>
    cases hT : IsTautology z3 c0.conds with
    | none => simp [gatherRest, hT] at h
    | some b =>
      cases b with
      | true =>
        rw [gatherRest_cons_break stmt tl hT, Option.some.injEq, Prod.mk.injEq] at h
        obtain ⟨h1, h2⟩ := h
        subst h1 h2
        exact ⟨gather_cons_break stmt tl hT, [], rfl, Scan.done _, fun _ => hT⟩
      | false =>
        have step : ∀ c1, (Keeps z3 c0 stmt ∧
              c1 = ⟨c0.elifs ++ [stmt], c0.conds ++ [GetZ3Cond z3 stmt]⟩) ∨
            (Clears z3 c0 stmt ∧ c1 = ⟨[stmt], [GetZ3Cond z3 stmt]⟩) →
            gatherRest z3 tl c1 = some (c, rest) →
            gather z3 (stmt :: tl) c0 = gather z3 tl c1 →
            gather z3 (stmt :: tl) c0 = some c ∧
            ∃ scanned, stmt :: tl = scanned ++ rest ∧ Scan z3 c0 scanned c ∧
              (rest ≠ [] → IsTautology z3 c.conds = some true) := by
          intro c1 hc1 hr hge
          obtain ⟨hg, sc, hxs, hscan, hstop⟩ := ih hr
          refine ⟨hge.trans hg, stmt :: sc, by simp [hxs], ?_, hstop⟩
          rcases hc1 with ⟨hk, rfl⟩ | ⟨hc, rfl⟩
          · exact Scan.keep hk hscan
          · exact Scan.clear hc hscan
        by_cases he : stmt.else_.isSome = true
        · have hc : Clears z3 c0 stmt := ⟨hT, Or.inl he⟩
          rw [gatherRest_cons_clear tl hc] at h
          exact step _ (Or.inr ⟨hc, rfl⟩) h (gather_cons_clear tl hc)
        · cases hU : IsUnrechable z3 c0.conds (GetZ3Cond z3 stmt) with
          | none => simp [gatherRest, hT, he, hU] at h
          | some u =>
            cases u with
            | true =>
              have he2 : stmt.else_ = none := by
                cases hs : stmt.else_ with
                | none => rfl
                | some v => simp [hs] at he
              have hk : Keeps z3 c0 stmt := ⟨hT, he2, hU⟩
              rw [gatherRest_cons_keep tl hk] at h
              exact step _ (Or.inl ⟨hk, rfl⟩) h (gather_cons_keep tl hk)
            | false =>
              have hc : Clears z3 c0 stmt := ⟨hT, Or.inr hU⟩
              rw [gatherRest_cons_clear tl hc] at h
              exact step _ (Or.inr ⟨hc, rfl⟩) h (gather_cons_clear tl hc)

/-- After at least one full iteration the candidates are not empty. -/
theorem Scan.elifs_ne_nil {c0 c : Candidates E Env} {x : IfStmt E} {xs : List (IfStmt E)}
    (h : Scan z3 c0 (x :: xs) c) : c.elifs ≠ [] := by
  cases h with
  | keep _ hr => exact Scan.invariant (P := fun c => c.elifs ≠ []) (by simp) (by simp) hr (by simp)
  | clear _ hr => exact Scan.invariant (P := fun c => c.elifs ≠ []) (by simp) (by simp) hr (by simp)

/-- `CreateIfElseStmts` leaves alone every key that is not the address of a run
member. -/
theorem CreateIfElseStmts_other_keys {p p1 : Pass E} {stmts : List (IfStmt E)}
    {c : Candidates E Env} (hg : gather z3 stmts.reverse ⟨[], []⟩ = some c)
    (hnd : (stmts.map IfStmt.addr).Nodup) (h : CreateIfElseStmts z3 p stmts = some p1)
    (k : Nat) (hk : k ∉ c.elifs.map IfStmt.addr) : p1.substitutions k = p.substitutions k := by
  by_cases hn : 2 ≤ c.elifs.length
  · obtain ⟨s1, mid, sn, hrun, h2⟩ := CreateIfElseStmts_run p hg hn hnd
    rw [h2, Option.some.injEq] at h
    rw [← h]
    have hmem : c.elifs.map IfStmt.addr = ((s1 :: (mid ++ [sn])).map IfStmt.addr).reverse := by
      rw [← hrun, List.map_reverse, List.reverse_reverse]
    rw [hmem, List.mem_reverse, List.map_cons, List.mem_cons, not_or] at hk
    simp only [hk.1, hk.2, if_false]
  · simp only [CreateIfElseStmts, hg] at h
    rw [buildCascade_short p _ (by omega), Option.some.injEq] at h
    rw [← h]

end which_run

section exclusive_list

variable {E Env : Type} {z3 : Z3 E Env}

/-- With an exact prover, a scan over statements without else-branches whose
guards are pairwise exclusive, entered with candidates `pre`, keeps every
statement, as long as the guards gathered before each iteration are not
exhaustive. -/
theorem scan_all (hp : ProveExact z3) (xs pre : List (IfStmt E))
    (hno : ∀ s ∈ xs, s.else_ = none) (hex : Exclusive z3 (pre ++ xs))
    (hnv : ∀ ys zs, xs = ys ++ zs → zs ≠ [] →
      ¬ ∀ env, ∃ s ∈ pre ++ ys, holds z3 env s.cond = true) :
    Scan z3 ⟨pre, pre.map (GetZ3Cond z3)⟩ xs ⟨pre ++ xs, (pre ++ xs).map (GetZ3Cond z3)⟩ := by
  induction xs generalizing pre with
  | nil =>
    rw [List.append_nil]
    exact Scan.done _
  | cons x xs ih =>
    have hk : Keeps z3 ⟨pre, pre.map (GetZ3Cond z3)⟩ x := by
      refine ⟨?_, hno x (List.mem_cons_self _ _), ?_⟩
      · apply IsTautology_eq_false hp
        intro hv
        apply hnv [] (x :: xs) rfl (by simp)
        intro env
        have := (eval_mk_or_map env pre).1 (hv env)
        simpa using this
      · apply IsUnrechable_eq_true hp
        rintro env ⟨h1, h2⟩
        obtain ⟨s, hs, hh⟩ := (eval_mk_or_map env pre).1 h2
        unfold Exclusive at hex
        rw [List.pairwise_append] at hex
        exact hex.2.2 s hs x (List.mem_cons_self _ _) env ⟨hh, h1⟩
    have hrest := ih (pre ++ [x]) (fun s hs => hno s (List.mem_cons_of_mem _ hs))
      (by simpa using hex)
      (by
        intro ys zs hxs hzs
        have := hnv (x :: ys) zs (by simp [hxs]) hzs
        simpa using this)
    have e1 : pre ++ [x] ++ xs = pre ++ x :: xs := by simp
    have e2 : (pre ++ [x]).map (GetZ3Cond z3) = pre.map (GetZ3Cond z3) ++ [GetZ3Cond z3 x] := by
      simp
    rw [e1, e2] at hrest
    exact Scan.keep hk hrest

end exclusive_list

section occurrence

variable {E : Type}

theorem containsList_eq_false (x : Nat) (l : List (Stmt E)) :
    containsList x l = false ↔ ∀ ch ∈ l, ch.contains x = false := by
  induction l with
  | nil => simp [containsList]
  | cons s r ih => simp [containsList, ih]

/-- A node that is older than the nodes of a cascade and occurs in none of the
then-branches does not occur in the cascade. -/
theorem cascadeOf_contains (x : Nat) (run : List (IfStmt E)) (a : Nat) (R : Stmt E)
    (hthen : ∀ s ∈ run, s.then_.contains x = false) (hx : x < a)
    (hR : cascadeOf a run = some R) : R.contains x = false := by
  induction run generalizing a R with
  | nil => simp [cascadeOf] at hR
  | cons s l ih =>
    have hs := hthen s (List.mem_cons_self _ _)
    have hax : (a == x) = false := by
      simp only [beq_eq_false_iff_ne, ne_eq]
      omega
    cases l with
    | nil =>
      simp only [cascadeOf, Option.some.injEq] at hR
      subst hR
      simp [Stmt.contains, containsList, hs, hax]
    | cons t r =>
      obtain ⟨R2, hR2⟩ := cascadeOf_cons_some (a + 1) t r
      simp only [cascadeOf] at hR hR2
      rw [hR2, Option.some.injEq] at hR
      subst hR
      have h2 := ih (a + 1) R2 (fun u hu => hthen u (List.mem_cons_of_mem _ hu)) (by omega)
        hR2
      simp [Stmt.contains, hs, hax, h2]

end occurrence

/-- In every collapsed run `S1..Sn` (`n ≥ 2`, siblings with distinct addresses),
whether or not its guards were proved exhaustive, the last branch of the
cascade recorded for `S1` is a new block whose only child is the then-branch
of `Sn`. -/
theorem guard_dropped_in_collapsed_run {E Env : Type} (z3 : Z3 E Env) (p : Pass E)
    (stmts : List (IfStmt E)) (c : Candidates E Env)
    (hg : gather z3 stmts.reverse ⟨[], []⟩ = some c) (hn : 2 ≤ c.elifs.length)
    (hnd : (stmts.map IfStmt.addr).Nodup) :
    ∃ p1 s1 sn R1, CreateIfElseStmts z3 p stmts = some p1 ∧
      c.elifs.reverse.head? = some s1 ∧ c.elifs.head? = some sn ∧
      p1.substitutions s1.addr = some (some R1) ∧
      lastBranch R1 = .CompoundStmt (p.ast_ctx + (c.elifs.length - 1)) [sn.then_] := by
  obtain ⟨s1, mid, sn, hrun, h⟩ := CreateIfElseStmts_run p hg hn hnd
  obtain ⟨R1, hR1⟩ := cascadeOf_cons_some p.ast_ctx s1 (mid ++ [sn])
  have hl := lastBranch_cascadeOf p.ast_ctx s1 mid sn
  rw [hR1, Option.map_some', Option.some.injEq] at hl
  have he : c.elifs = (s1 :: (mid ++ [sn])).reverse := by
    rw [← hrun, List.reverse_reverse]
  refine ⟨_, s1, sn, R1, h, by rw [hrun]; rfl, by simp [he], by simp [hrun, hR1], ?_⟩
  rw [hl, he]
  simp

section changed_flag

variable {E Env : Type} {z3 : Z3 E Env}

theorem cascadeOf_addr (a : Nat) (s : IfStmt E) (l : List (IfStmt E)) (R : Stmt E)
    (h : cascadeOf a (s :: l) = some R) : R.addr = a := by
  cases l with
  | nil =>
    simp only [cascadeOf, Option.some.injEq] at h
    rw [← h]; rfl
  | cons t r =>
    simp only [cascadeOf, Option.some.injEq] at h
    rw [← h]; rfl

/-- `CreateIfElseStmts` on siblings with distinct addresses: the values it adds
are new nodes, the allocator only advances, and it either returns the pass
object unchanged or leaves an entry for one of the statements. -/
theorem CreateIfElseStmts_newValues {base : Nat} {p p1 : Pass E} {stmts : List (IfStmt E)}
    (hnd : (stmts.map IfStmt.addr).Nodup) (hinv : NewValues base p)
    (h : CreateIfElseStmts z3 p stmts = some p1) :
    NewValues base p1 ∧ p.ast_ctx ≤ p1.ast_ctx ∧
      (p1 = p ∨ ∃ s ∈ stmts, (p1.substitutions s.addr).isSome = true) := by
  cases hg : gather z3 stmts.reverse ⟨[], []⟩ with
  | none =>
    simp only [CreateIfElseStmts, hg] at h
    cases h
  | some c =>
    by_cases hn : 2 ≤ c.elifs.length
    · obtain ⟨s1, mid, sn, hrun, h2⟩ := CreateIfElseStmts_run p hg hn hnd
      obtain ⟨R1, hR1⟩ := cascadeOf_cons_some p.ast_ctx s1 (mid ++ [sn])
      have hR1a := cascadeOf_addr _ _ _ _ hR1
      obtain ⟨A, B, hseg, -, -⟩ := gather_segment hg
      rw [h2, Option.some.injEq] at h
      subst h
      refine ⟨⟨?_, ?_⟩, ?_, Or.inr ⟨s1, ?_, ?_⟩⟩
      · show base ≤ p.ast_ctx + c.elifs.length
        have := hinv.1
        omega
      · intro k v hk
        show base ≤ v.addr ∧ v.addr < p.ast_ctx + c.elifs.length
        have hk2 : (if k = s1.addr then some (cascadeOf p.ast_ctx c.elifs.reverse)
            else if k ∈ (mid ++ [sn]).map IfStmt.addr then some none
            else p.substitutions k) = some (some v) := hk
        by_cases h1 : k = s1.addr
        · rw [if_pos h1, hrun, hR1, Option.some.injEq, Option.some.injEq] at hk2
          subst hk2
          have := hinv.1
          omega
        · rw [if_neg h1] at hk2
          by_cases h3 : k ∈ (mid ++ [sn]).map IfStmt.addr
          · rw [if_pos h3, Option.some.injEq] at hk2
            cases hk2
          · rw [if_neg h3] at hk2
            have := hinv.2 k v hk2
            omega
      · show p.ast_ctx ≤ p.ast_ctx + c.elifs.length
        omega
      · rw [hseg, hrun]; simp
      · show (if s1.addr = s1.addr then some (cascadeOf p.ast_ctx c.elifs.reverse)
            else _).isSome = true
        rw [if_pos rfl]; rfl
    · simp only [CreateIfElseStmts, hg] at h
      rw [buildCascade_short p _ (by omega), Option.some.injEq] at h
      subst h
      exact ⟨hinv, Nat.le_refl _, Or.inl rfl⟩

/-- One visit of the block rewriter, entered with a map whose values are new
nodes, on a block whose children are old nodes with distinct addresses: the
children array is left changed exactly when the visit changes `substitutions`. -/
theorem VisitCompoundStmt_flag {base : Nat} {q q1 : Pass E} {a : Nat} {body : List (Stmt E)}
    {body1 : List (Option (Stmt E))}
    (hinv : NewValues base q) (hold : ∀ ch ∈ body, ch.addr < base)
    (hnd : (body.map Stmt.addr).Nodup)
    (h : VisitCompoundStmt z3 q a body = some (q1, body1)) :
    NewValues base q1 ∧
      (childrenChanged body body1 = true ↔ q1.substitutions ≠ q.substitutions) := by
  have hnd2 : ((GetIfStmts body).map IfStmt.addr).Nodup :=
    List.Nodup.sublist (GetIfStmts_addr_sublist body) hnd
  cases hc : CreateIfElseStmts z3 q (GetIfStmts body) with
  | none => simp [VisitCompoundStmt, hc] at h
  | some q2 =>
    obtain ⟨hinv2, hmono, hdisj⟩ := CreateIfElseStmts_newValues hnd2 hinv hc
    cases hr : (ReplaceChildren body q2.substitutions).2 with
    | true =>
      rw [VisitCompoundStmt_replaced hc hr, Option.some.injEq, Prod.mk.injEq] at h
      obtain ⟨h1, h2⟩ := h
      subst h1 h2
      refine ⟨⟨?_, ?_⟩, ?_⟩
      · show base ≤ q2.ast_ctx + 1
        have := hinv2.1
        omega
      · intro k v hk
        show base ≤ v.addr ∧ v.addr < q2.ast_ctx + 1
        have hk2 : Function.update q2.substitutions a
            (some (some (.CompoundStmt q2.ast_ctx
              ((ReplaceChildren body q2.substitutions).1.filterMap (fun stmt => stmt))))) k
            = some (some v) := hk
        by_cases hka : k = a
        · subst hka
          rw [Function.update_same, Option.some.injEq, Option.some.injEq] at hk2
          subst hk2
          have := hinv2.1
          simp only [Stmt.addr]
          omega
        · rw [Function.update_noteq hka] at hk2
          have := hinv2.2 k v hk2
          omega
      · have hleft : childrenChanged body (ReplaceChildren body q2.substitutions).1 = true := by
          have hany : (body.any (fun ch => (q2.substitutions ch.addr).isSome)) = true := hr
          rw [List.any_eq_true] at hany
          obtain ⟨ch, hch, hkey⟩ := hany
          unfold childrenChanged
          rw [bne_iff_ne]
          intro heq
          simp only [ReplaceChildren, List.map_map] at heq
          have hpt := List.map_inj_left.1 heq ch hch
          simp only [Function.comp] at hpt
          cases hv : q2.substitutions ch.addr with
          | none => simp [hv] at hkey
          | some v =>
            rw [hv] at hpt
            cases v with
            | none => simp at hpt
            | some w =>
              simp only [Option.map_some', Option.some.injEq] at hpt
              have := (hinv2.2 _ _ hv).1
              have := hold ch hch
              omega
        have hright : Function.update q2.substitutions a
            (some (some (.CompoundStmt q2.ast_ctx
              ((ReplaceChildren body q2.substitutions).1.filterMap (fun stmt => stmt)))))
            ≠ q.substitutions := by
          intro heq
          have hk := congrFun heq a
          rw [Function.update_same] at hk
          have := (hinv.2 _ _ hk.symm).2
          simp only [Stmt.addr] at this
          omega
        exact ⟨fun _ => hright, fun _ => hleft⟩
    | false =>
      have hno : ∀ ch ∈ body, q2.substitutions ch.addr = none := by
        have hany : (body.any (fun ch => (q2.substitutions ch.addr).isSome)) = false := hr
        rw [List.any_eq_false] at hany
        intro ch hch
        have := hany ch hch
        cases hv : q2.substitutions ch.addr with
        | none => rfl
        | some v => simp [hv] at this
      rw [VisitCompoundStmt_untouched hc hno, Option.some.injEq, Prod.mk.injEq] at h
      obtain ⟨h1, h2⟩ := h
      subst h1 h2
      have hq : q2 = q := by
        rcases hdisj with hq | ⟨s, hs, hkey⟩
        · exact hq
        · exfalso
          have := hno s.toStmt (mem_GetIfStmts hs)
          simp only [IfStmt.toStmt, Stmt.addr] at this
          rw [this] at hkey
          simp at hkey
      subst hq
      refine ⟨hinv, ?_⟩
      have : childrenChanged body (body.map some) = false := by
        unfold childrenChanged
        simp [List.map_map, Function.comp]
      rw [this]
      simp

theorem TraverseDecl_cons {addr : Nat} {body : List (Stmt E)} {p p1 : Pass E}
    {body1 : List (Option (Stmt E))} (rest : List (Nat × List (Stmt E)))
    (h : VisitCompoundStmt z3 p addr body = some (p1, body1)) :
    TraverseDecl z3 ((addr, body) :: rest) p
      = TraverseDecl z3 rest { p1 with changed := p1.changed || childrenChanged body body1 } := by
  simp only [TraverseDecl, h]

theorem TraverseDecl_total (hp : ∀ e, ∃ b, Prove z3 e = some b)
    (blocks : List (Nat × List (Stmt E))) (p : Pass E) :
    ∃ p1, TraverseDecl z3 blocks p = some p1 := by
  induction blocks generalizing p with
  | nil => exact ⟨p, rfl⟩
  | cons b rest ih =>
    obtain ⟨a, body⟩ := b
    obtain ⟨⟨q, body1⟩, hq⟩ := VisitCompoundStmt_total hp p a body
    rw [TraverseDecl_cons rest hq]
    exact ih _

/-- The flag after a traversal of blocks of old nodes: it was set before, or
some visit of the block rewriter changed `substitutions`. -/
theorem TraverseDecl_flag (base : Nat) (blocks : List (Nat × List (Stmt E))) (p0 p1 : Pass E)
    (hinv : NewValues base p0)
    (hold : ∀ blk ∈ blocks, ∀ ch ∈ blk.2, ch.addr < base)
    (hnd : ∀ blk ∈ blocks, (blk.2.map Stmt.addr).Nodup)
    (h : TraverseDecl z3 blocks p0 = some p1) :
    p1.changed = true ↔ (p0.changed = true ∨
      ∃ pre a body post q q1 body1, blocks = pre ++ (a, body) :: post ∧
        TraverseDecl z3 pre p0 = some q ∧
        VisitCompoundStmt z3 q a body = some (q1, body1) ∧
        q1.substitutions ≠ q.substitutions) := by
  induction blocks generalizing p0 with
  | nil =>
    simp only [TraverseDecl, Option.some.injEq] at h
    subst h
    constructor
    · exact Or.inl
    · rintro (h | ⟨pre, a, body, post, q, q1, body1, hb, -, -, -⟩)
      · exact h
      · simp at hb
  | cons b rest ih =>
    obtain ⟨a, body⟩ := b
    cases hv : VisitCompoundStmt z3 p0 a body with
    | none => simp [TraverseDecl, hv] at h
    | some r =>
      obtain ⟨q1, body1⟩ := r
      have hch := VisitCompoundStmt_changed hv
      obtain ⟨hinv1, hiff⟩ := VisitCompoundStmt_flag hinv
        (hold (a, body) (List.mem_cons_self _ _)) (hnd (a, body) (List.mem_cons_self _ _)) hv
      rw [TraverseDecl_cons rest hv] at h
      have hinv2 : NewValues base
          { q1 with changed := q1.changed || childrenChanged body body1 } := hinv1
      rw [ih _ hinv2 (fun blk hb => hold blk (List.mem_cons_of_mem _ hb))
        (fun blk hb => hnd blk (List.mem_cons_of_mem _ hb)) h]
      have hflag : ({ q1 with changed := q1.changed || childrenChanged body body1 } :
          Pass E).changed = true ↔ (p0.changed = true ∨ q1.substitutions ≠ p0.substitutions) := by
        show (q1.changed || childrenChanged body body1) = true ↔ _
        rw [Bool.or_eq_true, hch, hiff]
      rw [hflag]
      constructor
      · rintro ((h1 | h1) | ⟨pre, a2, body2, post, q, q2, body3, hb, ht, hv2, hne⟩)
        · exact Or.inl h1
        · exact Or.inr ⟨[], a, body, rest, p0, q1, body1, rfl, rfl, hv, h1⟩
        · refine Or.inr ⟨(a, body) :: pre, a2, body2, post, q, q2, body3, by simp [hb], ?_,
            hv2, hne⟩
          rw [TraverseDecl_cons pre hv]; exact ht
      · rintro (h1 | ⟨pre, a2, body2, post, q, q2, body3, hb, ht, hv2, hne⟩)
        · exact Or.inl (Or.inl h1)
        · cases pre with
          | nil =>
            simp only [List.nil_append, List.cons.injEq, Prod.mk.injEq] at hb
            obtain ⟨⟨ha, hb2⟩, -⟩ := hb
            simp only [TraverseDecl, Option.some.injEq] at ht
            subst ht ha hb2
            rw [hv, Option.some.injEq, Prod.mk.injEq] at hv2
            rw [← hv2.1] at hne
            exact Or.inl (Or.inr hne)
          | cons x pre2 =>
            simp only [List.cons_append, List.cons.injEq] at hb
            obtain ⟨hx, hrest⟩ := hb
            subst hx
            rw [TraverseDecl_cons pre2 hv] at ht
            exact Or.inr ⟨pre2, a2, body2, post, q, q2, body3, hrest, ht, hv2, hne⟩

theorem Initialize_newValues (p : Pass E) : NewValues p.ast_ctx (Initialize p) :=
  ⟨Nat.le_refl _, fun _ _ h => by simp [Initialize] at h⟩

end changed_flag

/-! ## The claims -/

/-- C1 (the code at the failing input). On scenario 1 (`x==1`, `x==2`, `x==3`, exact
prover) the gather loop leaves all three statements, `CreateIfElseStmts` maps
the first to `if (x==1) .. else if (x==2) .. else { body of x==3 }`, and under
`x = 4` the original sequence executes no then-branch while the cascade
executes the body of the third statement. -/
theorem C1_unsound_on_nonexhaustive_run :
    ProveExact demoZ3 ∧
    gather demoZ3 demo123.reverse ⟨[], []⟩ = some demo123Run ∧
    (CreateIfElseStmts demoZ3 demoPass demo123).map (fun p => p.substitutions 1)
      = some (some (some demo123Cascade)) ∧
    thensOfSeq demoZ3 4 demo123 = [] ∧
    thensOfCascade demoZ3 4 demo123Cascade = [.Other 13] :=
  ⟨demoZ3_exact, rfl, rfl, rfl, rfl⟩

/-- C2. Equivalence under the proven facts: when the prover is sound and
`CreateIfElseStmts` collapses a run `S1..Sn` (`n ≥ 2`) whose guards' disjunction is
valid (in particular when the prover proves it a tautology), the call returns,
`S1` is mapped to the cascade `R1`, and under every assignment exactly one
guard `gk` of the run holds, the cascade executes exactly the then-branch of
`Sk`, and so does the original sequence `S1; ...; Sn`. -/
theorem C2_equivalence_under_proven_facts {E Env : Type} (z3 : Z3 E Env) (hp : ProveSound z3)
    (p : Pass E) (stmts : List (IfStmt E)) (c : Candidates E Env)
    (hg : gather z3 stmts.reverse ⟨[], []⟩ = some c) (hn : 2 ≤ c.elifs.length)
    (hnd : (stmts.map IfStmt.addr).Nodup)
    (hex : (∀ env, (mk_or c.conds).eval env = true) ∨ IsTautology z3 c.conds = some true) :
    ∃ p1 s1 R1, CreateIfElseStmts z3 p stmts = some p1 ∧ c.elifs.reverse.head? = some s1 ∧
      p1.substitutions s1.addr = some (some R1) ∧
      ∀ env, ∃ k, ∃ hk : k < c.elifs.reverse.length,
        holds z3 env (c.elifs.reverse[k]).cond = true ∧
        (∀ j (hj : j < c.elifs.reverse.length),
          holds z3 env (c.elifs.reverse[j]).cond = true → j = k) ∧
        thensOfCascade z3 env R1 = [(c.elifs.reverse[k]).then_] ∧
        thensOfSeq z3 env c.elifs.reverse = [(c.elifs.reverse[k]).then_] := by
  obtain ⟨s1, mid, sn, hrun, h⟩ := CreateIfElseStmts_run p hg hn hnd
  obtain ⟨R1, hR1⟩ := cascadeOf_cons_some p.ast_ctx s1 (mid ++ [sn])
  have hvalid : ∀ env, (mk_or c.conds).eval env = true := by
    rcases hex with h1 | h1
    · exact h1
    · exact fun env => IsTautology_sound hp h1 env
  have hexcl : Exclusive z3 c.elifs.reverse := (gather_exclusive hp hg).reverse
  refine ⟨_, s1, R1, h, by rw [hrun]; rfl, by simp [hrun, hR1], ?_⟩
  intro env
  have hv := hvalid env
  rw [gather_conds_eq hg, eval_mk_or_map] at hv
  obtain ⟨s, hs, hh⟩ := hv
  have hs2 : s ∈ c.elifs.reverse := List.mem_reverse.2 hs
  obtain ⟨k, hk, hks⟩ := List.getElem_of_mem hs2
  have hhk : holds z3 env (c.elifs.reverse[k]).cond = true := by rw [hks]; exact hh
  have hseq := thensOfSeq_unique env c.elifs.reverse hexcl k hk hhk
  refine ⟨k, hk, hhk, ?_, ?_, hseq⟩
  · intro j hj hhj
    exact hexcl.unique env j k hj hk hhj hhk
  · rw [← hseq]
    refine thens_agree env c.elifs.reverse p.ast_ctx R1 hexcl ⟨_, hs2, hh⟩ ?_
    rw [hrun]; exact hR1

/-- Witness of C2 on the exhaustive pair `if (x==1) ..; if (x!=1) ..`. -/
theorem C2_equivalence_under_proven_facts_witness :
    ProveSound demoZ3 ∧ gather demoZ3 demoExh.reverse ⟨[], []⟩ = some demoExhRun ∧
    2 ≤ demoExhRun.elifs.length ∧ (demoExh.map IfStmt.addr).Nodup ∧
    IsTautology demoZ3 demoExhRun.conds = some true ∧
    ∃ p1 s1 R1, CreateIfElseStmts demoZ3 demoPass demoExh = some p1 ∧
      demoExhRun.elifs.reverse.head? = some s1 ∧
      p1.substitutions s1.addr = some (some R1) ∧
      ∀ env, ∃ k, ∃ hk : k < demoExhRun.elifs.reverse.length,
        holds demoZ3 env (demoExhRun.elifs.reverse[k]).cond = true ∧
        (∀ j (hj : j < demoExhRun.elifs.reverse.length),
          holds demoZ3 env (demoExhRun.elifs.reverse[j]).cond = true → j = k) ∧
        thensOfCascade demoZ3 env R1 = [(demoExhRun.elifs.reverse[k]).then_] ∧
        thensOfSeq demoZ3 env demoExhRun.elifs.reverse
          = [(demoExhRun.elifs.reverse[k]).then_] :=
  ⟨demoZ3_exact.sound, rfl, by decide, by decide, rfl,
    C2_equivalence_under_proven_facts demoZ3 demoZ3_exact.sound demoPass demoExh demoExhRun
      rfl (by decide) (by decide) (Or.inr rfl)⟩

/-- C3 (the code at the failing input). On scenario 1 (`x==1`, `x==2`, `x==3`,
exact prover) the run of all three statements is not proved exhaustive (the
tautology test on its guards answers "not proved"), yet in the cascade
recorded for the first statement the last branch is the bare block holding
the body of `x==3`, not a conditional that keeps the guard `x==3`. -/
theorem C3_guard_dropped_without_exhaustiveness :
    ProveExact demoZ3 ∧
    gather demoZ3 demo123.reverse ⟨[], []⟩ = some demo123Run ∧
    IsTautology demoZ3 demo123Run.conds = some false ∧
    (CreateIfElseStmts demoZ3 demoPass demo123).map (fun p => p.substitutions 1)
      = some (some (some demo123Cascade)) ∧
    lastBranch demo123Cascade = .CompoundStmt 102 [.Other 13] ∧
    ¬ (∃ a, lastBranch demo123Cascade = .IfStmt a (xEq 3) (.Other 13) none) :=
  ⟨demoZ3_exact, rfl, rfl, rfl, rfl, fun ⟨_, h⟩ => by
    have h2 : (Stmt.CompoundStmt 102 [.Other 13] : Stmt (Fin 5 → Bool))
        = .IfStmt _ (xEq 3) (.Other 13) none := h
    cases h2⟩

/-- C4. Shape of the built cascade: for a detected run `S1..Sn` (source order,
`n ≥ 2`) among siblings with distinct addresses, `CreateIfElseStmts` returns and
changes `substitutions` in exactly these entries: `S1` is mapped to the new
conditional `R1 = if (g1) T1 else if (g2) T2 ... else { Tn }` (`cascadeOf`), each of
`S2..Sn` is mapped to the delete marker, every other key is left as it was. -/
theorem C4_cascade_shape {E Env : Type} (z3 : Z3 E Env) (p : Pass E) (stmts : List (IfStmt E))
    (c : Candidates E Env)
    (hg : gather z3 stmts.reverse ⟨[], []⟩ = some c) (hn : 2 ≤ c.elifs.length)
    (hnd : (stmts.map IfStmt.addr).Nodup) :
    ∃ s1 mid sn, c.elifs.reverse = s1 :: (mid ++ [sn]) ∧
      CreateIfElseStmts z3 p stmts
        = some { p with
            substitutions := fun k =>
              if k = s1.addr then some (cascadeOf p.ast_ctx (s1 :: (mid ++ [sn])))
              else if k ∈ (mid ++ [sn]).map IfStmt.addr then some none
              else p.substitutions k
            ast_ctx := p.ast_ctx + c.elifs.length } := by
  obtain ⟨s1, mid, sn, hrun, h⟩ := CreateIfElseStmts_run p hg hn hnd
  exact ⟨s1, mid, sn, hrun, by rw [h, hrun]⟩

/-- Witness of C4 on scenario 1 (`x==1`, `x==2`, `x==3`). -/
theorem C4_cascade_shape_witness :
    gather demoZ3 demo123.reverse ⟨[], []⟩ = some demo123Run ∧
    2 ≤ demo123Run.elifs.length ∧ (demo123.map IfStmt.addr).Nodup ∧
    ∃ s1 mid sn, demo123Run.elifs.reverse = s1 :: (mid ++ [sn]) ∧
      CreateIfElseStmts demoZ3 demoPass demo123
        = some { demoPass with
            substitutions := fun k =>
              if k = s1.addr then some (cascadeOf demoPass.ast_ctx (s1 :: (mid ++ [sn])))
              else if k ∈ (mid ++ [sn]).map IfStmt.addr then some none
              else demoPass.substitutions k
            ast_ctx := demoPass.ast_ctx + demo123Run.elifs.length } :=
  ⟨rfl, by decide, by decide,
    C4_cascade_shape demoZ3 demoPass demo123 demo123Run rfl (by decide) (by decide)⟩

/-- C5. Minimum run size: `CreateIfElseStmts` records no substitution when the
run left by the backward scan has fewer than two statements; in particular
for a list of length 0 or 1 it can only return the pass unchanged, whatever the
prover answers, and does return it when the prover answers at all; and whenever
it returns a changed pass, the run had at least two statements. -/
theorem C5_minimum_run_size {E Env : Type} (z3 : Z3 E Env) (p : Pass E)
    (stmts : List (IfStmt E)) :
    (∀ c, gather z3 stmts.reverse ⟨[], []⟩ = some c → c.elifs.length < 2 →
      CreateIfElseStmts z3 p stmts = some p) ∧
    (stmts.length ≤ 1 → ∀ p1, CreateIfElseStmts z3 p stmts = some p1 → p1 = p) ∧
    (stmts.length ≤ 1 → (∀ e, ∃ b, Prove z3 e = some b) →
      CreateIfElseStmts z3 p stmts = some p) ∧
    (∀ p1, CreateIfElseStmts z3 p stmts = some p1 → p1 ≠ p →
      ∃ c, gather z3 stmts.reverse ⟨[], []⟩ = some c ∧ 2 ≤ c.elifs.length) := by
  have short : ∀ c, gather z3 stmts.reverse ⟨[], []⟩ = some c → c.elifs.length < 2 →
      CreateIfElseStmts z3 p stmts = some p := by
    intro c hg hl
    simp only [CreateIfElseStmts, hg]
    exact buildCascade_short p _ hl
  refine ⟨short, ?_, ?_, ?_⟩
  · intro hlen p1 h
    cases hg : gather z3 stmts.reverse ⟨[], []⟩ with
    | none => simp [CreateIfElseStmts, hg] at h
    | some c =>
      have hl := gather_length_le hg
      rw [short c hg (by omega)] at h
      exact (Option.some.inj h).symm
  · intro hlen hp
    obtain ⟨c, hg⟩ := gather_total hp stmts.reverse ⟨[], []⟩
    have hl := gather_length_le hg
    exact short c hg (by omega)
  · intro p1 h hne
    cases hg : gather z3 stmts.reverse ⟨[], []⟩ with
    | none => simp [CreateIfElseStmts, hg] at h
    | some c =>
      refine ⟨c, rfl, ?_⟩
      by_contra hlt
      rw [short c hg (by omega)] at h
      exact hne (Option.some.inj h).symm

/-- Witness of C5: a single `if (x==1)` is returned unchanged, and the three
statements of scenario 1, which do change the pass, form a run of three. -/
theorem C5_minimum_run_size_witness :
    ([ifX 1 (xEq 1) 11].length ≤ 1 ∧ (∀ e, ∃ b, Prove demoZ3 e = some b) ∧
      CreateIfElseStmts demoZ3 demoPass [ifX 1 (xEq 1) 11] = some demoPass) ∧
    (∃ c, gather demoZ3 demo123.reverse ⟨[], []⟩ = some c ∧ 2 ≤ c.elifs.length) :=
  ⟨⟨by decide, demoZ3_total,
     (C5_minimum_run_size demoZ3 demoPass [ifX 1 (xEq 1) 11]).2.2.1 (by decide) demoZ3_total⟩,
   by
     obtain ⟨s1, mid, sn, -, h⟩ :=
       @CreateIfElseStmts_run _ _ demoZ3 demoPass demo123 demo123Run
         rfl (by decide) (by decide)
     refine (C5_minimum_run_size demoZ3 demoPass demo123).2.2.2 _ h ?_
     intro hEq
     have h1 : demoPass.ast_ctx + demo123Run.elifs.length = demoPass.ast_ctx :=
       congrArg (fun q : Pass (Fin 5 → Bool) => q.ast_ctx) hEq
     exact absurd h1 (by decide)⟩

/-- C6. Reset correctness: with a sound prover, for siblings with distinct
addresses and positions `i < j < k` in the list, if statement `j` has an
else-branch, or the guards of statements `j` and `k` are jointly satisfiable,
then statements `i` and `k` are not both in the run left by the gather loop
(the run `CreateIfElseStmts` collapses). -/
theorem C6_reset_correctness {E Env : Type} (z3 : Z3 E Env) (hp : ProveSound z3)
    (stmts : List (IfStmt E)) (c : Candidates E Env)
    (hg : gather z3 stmts.reverse ⟨[], []⟩ = some c)
    (hnd : (stmts.map IfStmt.addr).Nodup)
    (i j k : Nat) (hij : i < j) (hjk : j < k) (hk : k < stmts.length)
    (hreset : (stmts[j]).else_.isSome = true ∨
      ∃ env, holds z3 env (stmts[j]).cond = true ∧ holds z3 env (stmts[k]).cond = true) :
    ¬ (stmts[i] ∈ c.elifs ∧ stmts[k] ∈ c.elifs) := by
  rintro ⟨hi, hkm⟩
  obtain ⟨A, B, hseg, -, -⟩ := gather_segment hg
  obtain ⟨scanned, rest, -, hscan, -⟩ := gather_eq_some hg
  have hnd2 : stmts.Nodup := List.Nodup.of_map _ hnd
  have hexcl : Exclusive z3 c.elifs.reverse := (gather_exclusive hp hg).reverse
  have hno : ∀ s ∈ c.elifs.reverse.dropLast, s.else_ = none := by
    intro s hs
    rw [List.dropLast_reverse, List.mem_reverse] at hs
    exact hscan.tail_no_else (by simp) s hs
  subst hseg
  have hi2 := index_of_mem_segment A c.elifs.reverse B hnd2 i (by omega)
    (List.mem_reverse.2 hi)
  have hk2 := index_of_mem_segment A c.elifs.reverse B hnd2 k hk (List.mem_reverse.2 hkm)
  have hjb : j - A.length < c.elifs.reverse.length := by omega
  have hkb : k - A.length < c.elifs.reverse.length := by omega
  have ej := getElem_segment A c.elifs.reverse B j (by omega) (by omega) (by omega) hjb
  have ek := getElem_segment A c.elifs.reverse B k (by omega) (by omega) hk hkb
  rw [ej, ek] at hreset
  rcases hreset with he | ⟨env, h1, h2⟩
  · have hjd : j - A.length < c.elifs.reverse.dropLast.length := by
      rw [List.length_dropLast]; omega
    have hm : c.elifs.reverse[j - A.length] ∈ c.elifs.reverse.dropLast := by
      rw [← List.getElem_dropLast _ _ hjd]
      exact List.getElem_mem _
    rw [hno _ hm] at he
    simp at he
  · unfold Exclusive at hexcl
    rw [List.pairwise_iff_getElem] at hexcl
    exact hexcl (j - A.length) (k - A.length) hjb hkb (by omega) env ⟨h1, h2⟩

/-- Witness of C6 on scenario 4: the statement with the else-branch sits
between `if (x==1)` and `if (x==3)`, and these two are not both in the run. -/
theorem C6_reset_correctness_witness :
    ProveSound demoZ3 ∧
    gather demoZ3 demoMid.reverse ⟨[], []⟩ = some demoElseRun ∧
    (demoMid.map IfStmt.addr).Nodup ∧ 0 < 1 ∧ 1 < 2 ∧ 2 < demoMid.length ∧
    (demoMid[1]).else_.isSome = true ∧
    ¬ (demoMid[0] ∈ demoElseRun.elifs ∧ demoMid[2] ∈ demoElseRun.elifs) :=
  ⟨demoZ3_exact.sound, rfl, by decide, by decide, by decide, by decide, rfl,
    C6_reset_correctness demoZ3 demoZ3_exact.sound demoMid demoElseRun rfl (by decide)
      0 1 2 (by decide) (by decide) (by decide) (Or.inl rfl)⟩

/-- C7. Else-branch position invariant: in the run `S1..Sn` (source order) left
by the gather loop none of `S1..S(n-1)` has an else-branch, so a member of the
run that has an else-branch is `Sn`, the first statement scanned into the run. -/
theorem C7_else_only_on_last {E Env : Type} (z3 : Z3 E Env) (stmts : List (IfStmt E))
    (c : Candidates E Env) (hg : gather z3 stmts.reverse ⟨[], []⟩ = some c) :
    (∀ s ∈ c.elifs.reverse.dropLast, s.else_ = none) ∧
    (∀ i (hi : i < c.elifs.reverse.length),
      (c.elifs.reverse[i]).else_.isSome = true → i + 1 = c.elifs.reverse.length) := by
  obtain ⟨scanned, rest, -, hscan, -⟩ := gather_eq_some hg
  have ht := hscan.tail_no_else (by simp)
  have h1 : ∀ s ∈ c.elifs.reverse.dropLast, s.else_ = none := by
    intro s hs
    rw [List.dropLast_reverse, List.mem_reverse] at hs
    exact ht s hs
  refine ⟨h1, ?_⟩
  intro i hi hsome
  by_contra hne
  have hi2 : i < c.elifs.reverse.dropLast.length := by
    rw [List.length_dropLast]; omega
  have hm : c.elifs.reverse[i] ∈ c.elifs.reverse.dropLast := by
    rw [← List.getElem_dropLast _ i hi2]
    exact List.getElem_mem _
  rw [h1 _ hm] at hsome
  simp at hsome

/-- Witness of C7: in `if (x==1) ..; if (x==2) .. else ..` both statements are
gathered and the one with the else-branch is the last of the run. -/
theorem C7_else_only_on_last_witness :
    gather demoZ3 demoElse.reverse ⟨[], []⟩ = some demoElseRun ∧
    (∀ s ∈ demoElseRun.elifs.reverse.dropLast, s.else_ = none) ∧
    (∀ i (hi : i < demoElseRun.elifs.reverse.length),
      (demoElseRun.elifs.reverse[i]).else_.isSome = true →
        i + 1 = demoElseRun.elifs.reverse.length) :=
  ⟨rfl, C7_else_only_on_last demoZ3 demoElse demoElseRun rfl⟩

/-- C8 (counterexample). The block `if (x!=1) ..; if (x==1) ..; if (x==1) ..;
if (x!=1) ..` (exact prover): the first application of the block rewrite
collapses the last two conditionals and registers the block with children
`demoTwice1`; applying the block rewrite again to that block (empty
substitution map) collapses the first two conditionals and registers a
different block for it, so the second application does record substitutions. -/
theorem C8_second_application_rewrites_again :
    ProveExact demoZ3 ∧
    (VisitCompoundStmt demoZ3 demoPass 50 demoTwice).map (fun r => r.1.substitutions 50)
      = some (some (some (.CompoundStmt 102 demoTwice1))) ∧
    (VisitCompoundStmt demoZ3 ⟨fun _ => none, 103, false⟩ 102 demoTwice1).map
        (fun r => (r.1.substitutions 1, r.1.substitutions 2, r.1.substitutions 102))
      = some (some (some (.IfStmt 103 (xNe 1) (.Other 11)
                (some (.CompoundStmt 104 [.Other 12])))),
              some none,
              some (some (.CompoundStmt 105 demoTwice2))) ∧
    demoTwice2 ≠ demoTwice1 :=
  ⟨demoZ3_exact, rfl, rfl, fun h => absurd (congrArg List.length h) (by decide)⟩

/-- C8 (amended). Idempotence when the run is first: if the block rewrite
collapses a run that begins at the first conditional child of the block
(children with distinct addresses, other children without entry in
`substitutions`) and registers the block `B1` for it, then applying the block
rewrite again to `B1`, from any pass object whose `substitutions` has no entry
for a child of `B1`, returns that pass object unchanged and leaves the
children of `B1` as they are. -/
theorem C8_second_application_when_run_is_first {E Env : Type} (z3 : Z3 E Env) (p : Pass E)
    (addr : Nat) (body : List (Stmt E)) (c : Candidates E Env)
    (hg : gather z3 (GetIfStmts body).reverse ⟨[], []⟩ = some c) (hn : 2 ≤ c.elifs.length)
    (hnd : (body.map Stmt.addr).Nodup)
    (hother : ∀ ch ∈ body, ch.addr ∉ c.elifs.map IfStmt.addr → p.substitutions ch.addr = none)
    (hfirst : (GetIfStmts body).head? = c.elifs.getLast?) :
    ∃ p1 body1 a1 body2, VisitCompoundStmt z3 p addr body = some (p1, body1) ∧
      p1.substitutions addr = some (some (.CompoundStmt a1 body2)) ∧
      ∀ p2 : Pass E, (∀ ch ∈ body2, p2.substitutions ch.addr = none) →
        VisitCompoundStmt z3 p2 a1 body2 = some (p2, body2.map some) := by
  obtain ⟨s1, mid, sn, R1, p1, body1, hrun, hR1, hv, hsub⟩ :=
    VisitCompoundStmt_run p addr hg hn hnd hother
  refine ⟨p1, body1, _, _, hv, hsub, ?_⟩
  intro p2 hp2
  have hnd2 : ((GetIfStmts body).map IfStmt.addr).Nodup :=
    List.Nodup.sublist (GetIfStmts_addr_sublist body) hnd
  obtain ⟨A, B, hseg, -, hscan⟩ := gather_segment hg
  have hA : A = [] := by
    refine @segment_at_head _ A c.elifs.reverse B ?_ ?_ ?_
    · rw [← hseg]; exact hnd2
    · rw [hrun]; simp
    · rw [← hseg, hfirst, List.head?_reverse]
  subst hA
  rw [List.nil_append] at hseg
  -- the cascade is a conditional with an else-branch
  obtain ⟨t, r, htr⟩ : ∃ t r, mid ++ [sn] = t :: r := by
    cases mid with
    | nil => exact ⟨sn, [], rfl⟩
    | cons m ms => exact ⟨m, ms ++ [sn], rfl⟩
  obtain ⟨R2, hR2⟩ := cascadeOf_two p.ast_ctx s1 t r
  rw [htr, hR2, Option.some.injEq] at hR1
  subst hR1
  -- the conditional children of the new block
  have hs1 : s1.toStmt ∈ body := by
    apply mem_GetIfStmts
    rw [hseg, hrun]
    simp
  have H : ∀ ch ∈ body, dyn_cast_IfStmt ch = none → ch.addr ≠ s1.addr := by
    intro ch hch hd he
    have := List.inj_on_of_nodup_map hnd hch hs1 he
    rw [this] at hd
    simp [IfStmt.toStmt, dyn_cast_IfStmt] at hd
  have hifs := GetIfStmts_filterMap body s1.addr
    (.IfStmt p.ast_ctx s1.cond s1.then_ (some R2)) ((mid ++ [sn]).map IfStmt.addr) H
  rw [hseg, hrun] at hifs
  rw [hseg, hrun] at hnd2
  rw [filterMap_run s1 (mid ++ [sn]) B _ hnd2] at hifs
  simp only [dyn_cast_IfStmt, Option.toList, List.singleton_append] at hifs
  -- the second scan
  obtain ⟨cB, hsB, hsrun⟩ := Scan.split _ _ hscan
  obtain ⟨x, xs, hx⟩ : ∃ x xs, c.elifs = x :: xs := by
    cases hc : c.elifs with
    | nil => rw [hc] at hn; simp at hn
    | cons x xs => exact ⟨x, xs, rfl⟩
  rw [hx] at hsrun
  have htaut := hsrun.head_not_taut
  have hstep : Scan z3 cB [⟨p.ast_ctx, s1.cond, s1.then_, some R2⟩]
      ⟨[⟨p.ast_ctx, s1.cond, s1.then_, some R2⟩],
       [GetZ3Cond z3 ⟨p.ast_ctx, s1.cond, s1.then_, some R2⟩]⟩ :=
    Scan.clear ⟨htaut, Or.inl rfl⟩ (Scan.done _)
  have hg2 := gather_of_scan (hsB.append hstep) [] (Or.inl rfl)
  rw [List.append_nil] at hg2
  have hc2 : CreateIfElseStmts z3 p2
      (GetIfStmts (body.filterMap (fun ch =>
        if ch.addr = s1.addr then some (.IfStmt p.ast_ctx s1.cond s1.then_ (some R2))
        else if ch.addr ∈ (mid ++ [sn]).map IfStmt.addr then none
        else some ch))) = some p2 := by
    rw [hifs]
    simp only [CreateIfElseStmts, List.reverse_cons, hg2]
    exact buildCascade_short p2 _ (by simp)
  exact VisitCompoundStmt_untouched hc2 hp2

/-- Witness of the amended C8 on the block of scenario 1, whose run starts at
the first conditional child. -/
theorem C8_second_application_when_run_is_first_witness :
    gather demoZ3 (GetIfStmts demoBlock).reverse ⟨[], []⟩ = some demo123Run ∧
    2 ≤ demo123Run.elifs.length ∧ (demoBlock.map Stmt.addr).Nodup ∧
    (∀ ch ∈ demoBlock, ch.addr ∉ demo123Run.elifs.map IfStmt.addr →
      demoPass.substitutions ch.addr = none) ∧
    (GetIfStmts demoBlock).head? = demo123Run.elifs.getLast? ∧
    ∃ p1 body1 a1 body2, VisitCompoundStmt demoZ3 demoPass 50 demoBlock = some (p1, body1) ∧
      p1.substitutions 50 = some (some (.CompoundStmt a1 body2)) ∧
      ∀ p2 : Pass (Fin 5 → Bool), (∀ ch ∈ body2, p2.substitutions ch.addr = none) →
        VisitCompoundStmt demoZ3 p2 a1 body2 = some (p2, body2.map some) :=
  ⟨rfl, by decide, by decide, fun _ _ _ => rfl, rfl,
    C8_second_application_when_run_is_first demoZ3 demoPass 50 demoBlock demo123Run rfl
      (by decide) (by decide) (fun _ _ _ => rfl) rfl⟩

/-- C9. Block rebuild: when the conditional children of a block (children with
distinct addresses) yield a collapsed run `S1..Sn` and the other children have
no entry in `substitutions`, `VisitCompoundStmt` returns and registers for the
block a new block whose children are the original children in their order,
with `S1` replaced by the cascade `R1`, `S2..Sn` left out and every other child
kept; and when after `CreateIfElseStmts` no child of the block is a key of
`substitutions`, nothing is registered: the pass object is the one
`CreateIfElseStmts` returned and the children are untouched. -/
theorem C9_block_rebuild {E Env : Type} (z3 : Z3 E Env) (p : Pass E) (addr : Nat)
    (body : List (Stmt E)) :
    (∀ c, gather z3 (GetIfStmts body).reverse ⟨[], []⟩ = some c → 2 ≤ c.elifs.length →
      (body.map Stmt.addr).Nodup →
      (∀ ch ∈ body, ch.addr ∉ c.elifs.map IfStmt.addr → p.substitutions ch.addr = none) →
      ∃ s1 rest R1 p1 body1, c.elifs.reverse = s1 :: rest ∧
        cascadeOf p.ast_ctx (s1 :: rest) = some R1 ∧
        VisitCompoundStmt z3 p addr body = some (p1, body1) ∧
        p1.substitutions addr
          = some (some (.CompoundStmt (p.ast_ctx + c.elifs.length)
              (body.filterMap (fun ch =>
                if ch.addr = s1.addr then some R1
                else if ch.addr ∈ rest.map IfStmt.addr then none
                else some ch))))) ∧
    (∀ p1, CreateIfElseStmts z3 p (GetIfStmts body) = some p1 →
      (∀ ch ∈ body, p1.substitutions ch.addr = none) →
      VisitCompoundStmt z3 p addr body = some (p1, body.map some)) := by
  constructor
  · intro c hg hn hnd hother
    obtain ⟨s1, mid, sn, R1, p1, body1, h1, h2, h3, h4⟩ :=
      VisitCompoundStmt_run p addr hg hn hnd hother
    exact ⟨s1, mid ++ [sn], R1, p1, body1, h1, h2, h3, h4⟩
  · intro p1 h hno
    exact VisitCompoundStmt_untouched h hno

/-- Witness of C9: the block of scenario 1 is rebuilt with the cascade in the
place of `if (x==1)`, and a block without conditionals is left alone. -/
theorem C9_block_rebuild_witness :
    (gather demoZ3 (GetIfStmts demoBlock).reverse ⟨[], []⟩ = some demo123Run ∧
      2 ≤ demo123Run.elifs.length ∧ (demoBlock.map Stmt.addr).Nodup ∧
      (∀ ch ∈ demoBlock, ch.addr ∉ demo123Run.elifs.map IfStmt.addr →
        demoPass.substitutions ch.addr = none) ∧
      ∃ s1 rest R1 p1 body1, demo123Run.elifs.reverse = s1 :: rest ∧
        cascadeOf demoPass.ast_ctx (s1 :: rest) = some R1 ∧
        VisitCompoundStmt demoZ3 demoPass 50 demoBlock = some (p1, body1) ∧
        p1.substitutions 50
          = some (some (.CompoundStmt (demoPass.ast_ctx + demo123Run.elifs.length)
              (demoBlock.filterMap (fun ch =>
                if ch.addr = s1.addr then some R1
                else if ch.addr ∈ rest.map IfStmt.addr then none
                else some ch))))) ∧
    (VisitCompoundStmt demoZ3 demoPass 50 demoBlock).map (fun r => r.1.substitutions 50)
      = some (some (some (.CompoundStmt 103 demoBlock1))) ∧
    (CreateIfElseStmts demoZ3 demoPass (GetIfStmts [.Other 5]) = some demoPass ∧
      (∀ ch ∈ [(.Other 5 : Stmt (Fin 5 → Bool))], demoPass.substitutions ch.addr = none) ∧
      VisitCompoundStmt demoZ3 demoPass 50 [.Other 5]
        = some (demoPass, [(.Other 5 : Stmt (Fin 5 → Bool))].map some)) :=
  ⟨⟨rfl, by decide, by decide, fun _ _ _ => rfl,
     (C9_block_rebuild demoZ3 demoPass 50 demoBlock).1 demo123Run rfl (by decide) (by decide)
       (fun _ _ _ => rfl)⟩,
   rfl,
   ⟨rfl, fun _ _ => rfl,
     (C9_block_rebuild demoZ3 demoPass 50 [.Other 5]).2 demoPass rfl (fun _ _ => rfl)⟩⟩

/-- C10. Changed flag: for a translation unit whose blocks have children with
distinct addresses, all older than the nodes the pass allocates, and a prover
that answers every query, `runOnModule` returns, and it returns `true` exactly
when the block rewriter performed a substitution somewhere in the tree during
the run: for some block of the tree, visited with the pass object `q` left by
the visits before it, `VisitCompoundStmt` returned a `substitutions` map
different from the one it was entered with. -/
theorem C10_changed_flag {E Env : Type} (z3 : Z3 E Env)
    (hp : ∀ e, ∃ b, Prove z3 e = some b) (p : Pass E) (tu : List (Stmt E))
    (hold : ∀ blk ∈ blocksOfList tu, ∀ ch ∈ blk.2, ch.addr < p.ast_ctx)
    (hnd : ∀ blk ∈ blocksOfList tu, (blk.2.map Stmt.addr).Nodup) :
    ∃ p1 ret, runOnModule z3 p tu = some (p1, ret) ∧
      (ret = true ↔
        ∃ pre a body post q q1 body1, blocksOfList tu = pre ++ (a, body) :: post ∧
          TraverseDecl z3 pre (Initialize p) = some q ∧
          VisitCompoundStmt z3 q a body = some (q1, body1) ∧
          q1.substitutions ≠ q.substitutions) := by
  obtain ⟨p1, h1⟩ := TraverseDecl_total hp (blocksOfList tu) (Initialize p)
  refine ⟨p1, p1.changed, by simp only [runOnModule, h1], ?_⟩
  rw [TraverseDecl_flag p.ast_ctx _ _ _ (Initialize_newValues p) hold hnd h1]
  constructor
  · rintro (h | h)
    · simp [Initialize] at h
    · exact h
  · exact Or.inr

/-- Witness of C10: for the translation unit with one function whose body is
the block of scenario 1 the run returns `true`, and for a function body
without conditionals it returns `false`. -/
theorem C10_changed_flag_witness :
    (∀ e, ∃ b, Prove demoZ3 e = some b) ∧
    (∀ blk ∈ blocksOfList [(.CompoundStmt 50 demoBlock : Stmt (Fin 5 → Bool))],
      ∀ ch ∈ blk.2, ch.addr < demoPass.ast_ctx) ∧
    (∀ blk ∈ blocksOfList [(.CompoundStmt 50 demoBlock : Stmt (Fin 5 → Bool))],
      (blk.2.map Stmt.addr).Nodup) ∧
    (runOnModule demoZ3 demoPass [.CompoundStmt 50 demoBlock]).map Prod.snd = some true ∧
    (runOnModule demoZ3 demoPass [.CompoundStmt 50 [.Other 5]]).map Prod.snd = some false ∧
    ∃ p1 ret, runOnModule demoZ3 demoPass [.CompoundStmt 50 demoBlock] = some (p1, ret) ∧
      (ret = true ↔
        ∃ pre a body post q q1 body1,
          blocksOfList [(.CompoundStmt 50 demoBlock : Stmt (Fin 5 → Bool))]
            = pre ++ (a, body) :: post ∧
          TraverseDecl demoZ3 pre (Initialize demoPass) = some q ∧
          VisitCompoundStmt demoZ3 q a body = some (q1, body1) ∧
          q1.substitutions ≠ q.substitutions) := by
  have hblocks : blocksOfList [(.CompoundStmt 50 demoBlock : Stmt (Fin 5 → Bool))]
      = [(50, demoBlock)] := rfl
  have hold : ∀ blk ∈ blocksOfList [(.CompoundStmt 50 demoBlock : Stmt (Fin 5 → Bool))],
      ∀ ch ∈ blk.2, ch.addr < demoPass.ast_ctx := by
    intro blk hblk ch hch
    rw [hblocks, List.mem_singleton] at hblk
    subst hblk
    simp only [demoBlock, List.mem_cons, List.mem_singleton, List.not_mem_nil, or_false] at hch
    rcases hch with rfl | rfl | rfl | rfl | rfl <;> decide
  have hnd : ∀ blk ∈ blocksOfList [(.CompoundStmt 50 demoBlock : Stmt (Fin 5 → Bool))],
      (blk.2.map Stmt.addr).Nodup := by
    intro blk hblk
    rw [hblocks, List.mem_singleton] at hblk
    subst hblk
    decide
  exact ⟨demoZ3_total, hold, hnd, rfl, rfl,
    C10_changed_flag demoZ3 demoZ3_total demoPass [.CompoundStmt 50 demoBlock] hold hnd⟩

/-- C11. Detection of a fully exclusive list: with an exact prover, for a list of
conditionals without else-branches whose guards are pairwise jointly
unsatisfiable and no non-empty proper suffix of which has a valid disjunction
of guards, the backward scan returns the entire list as the run (whether or
not the guards of the entire list are exhaustive); so such a list of two or
more statements (with distinct addresses) is collapsed: the first statement
is mapped to the cascade over the whole list and every other statement to the
delete marker. -/
theorem C11_fully_exclusive_list {E Env : Type} [Inhabited Env] (z3 : Z3 E Env)
    (hp : ProveExact z3) (p : Pass E) (stmts : List (IfStmt E))
    (hno : ∀ s ∈ stmts, s.else_ = none) (hex : Exclusive z3 stmts)
    (hsuf : ∀ pre suf, stmts = pre ++ suf → pre ≠ [] → suf ≠ [] →
      ¬ ∀ env, ∃ s ∈ suf, holds z3 env s.cond = true) :
    gather z3 stmts.reverse ⟨[], []⟩
      = some ⟨stmts.reverse, stmts.reverse.map (GetZ3Cond z3)⟩ ∧
    (2 ≤ stmts.length → (stmts.map IfStmt.addr).Nodup →
      ∃ s1 rest R1 p1, stmts = s1 :: rest ∧ cascadeOf p.ast_ctx stmts = some R1 ∧
        CreateIfElseStmts z3 p stmts = some p1 ∧
        p1.substitutions s1.addr = some (some R1) ∧
        ∀ s ∈ rest, p1.substitutions s.addr = some none) := by
  have hscan := scan_all hp stmts.reverse [] (fun s hs => hno s (List.mem_reverse.1 hs))
    (by rw [List.nil_append]; exact hex.reverse)
    (by
      intro ys zs hxs hzs hv
      rw [List.nil_append] at hv
      cases ys with
      | nil =>
        obtain ⟨s, hs, -⟩ := hv default
        simp at hs
      | cons y ys =>
        have hst : stmts = zs.reverse ++ (y :: ys).reverse := by
          have := congrArg List.reverse hxs
          rw [List.reverse_reverse, List.reverse_append] at this
          exact this
        refine hsuf _ _ hst (by simpa using hzs) (by simp) ?_
        intro env
        obtain ⟨s, hs, hh⟩ := hv env
        exact ⟨s, List.mem_reverse.2 hs, hh⟩)
  rw [List.nil_append] at hscan
  have hg : gather z3 stmts.reverse ⟨[], []⟩
      = some ⟨stmts.reverse, stmts.reverse.map (GetZ3Cond z3)⟩ := by
    have := gather_of_scan hscan [] (Or.inl rfl)
    rw [List.append_nil] at this
    exact this
  refine ⟨hg, ?_⟩
  intro hn hnd
  obtain ⟨s1, mid, sn, hrun, hc⟩ := CreateIfElseStmts_run p hg (by simpa using hn) hnd
  simp only [List.reverse_reverse] at hrun hc
  obtain ⟨R1, hR1⟩ := cascadeOf_cons_some p.ast_ctx s1 (mid ++ [sn])
  refine ⟨s1, mid ++ [sn], R1, _, hrun, by rw [hrun]; exact hR1, hc, ?_, ?_⟩
  · simp [hrun, hR1]
  · intro s hs
    have hne : s.addr ≠ s1.addr := by
      rw [hrun] at hnd
      simp only [List.map_cons, List.nodup_cons, List.mem_map, not_exists, not_and] at hnd
      exact fun he => hnd.1 s hs he
    simp only [hne, if_false]
    rw [if_pos (List.mem_map.2 ⟨s, hs, rfl⟩)]

/-- Witness of C11 on scenario 1 (`x==1`, `x==2`, `x==3`), whose guards are not
exhaustive. -/
theorem C11_fully_exclusive_list_witness :
    ProveExact demoZ3 ∧ (∀ s ∈ demo123, s.else_ = none) ∧ Exclusive demoZ3 demo123 ∧
    (∀ pre suf, demo123 = pre ++ suf → pre ≠ [] → suf ≠ [] →
      ¬ ∀ env, ∃ s ∈ suf, holds demoZ3 env s.cond = true) ∧
    2 ≤ demo123.length ∧ (demo123.map IfStmt.addr).Nodup ∧
    ¬ (∀ env, ∃ s ∈ demo123, holds demoZ3 env s.cond = true) ∧
    gather demoZ3 demo123.reverse ⟨[], []⟩
      = some ⟨demo123.reverse, demo123.reverse.map (GetZ3Cond demoZ3)⟩ ∧
    ∃ s1 rest R1 p1, demo123 = s1 :: rest ∧ cascadeOf demoPass.ast_ctx demo123 = some R1 ∧
      CreateIfElseStmts demoZ3 demoPass demo123 = some p1 ∧
      p1.substitutions s1.addr = some (some R1) ∧
      ∀ s ∈ rest, p1.substitutions s.addr = some none := by
  have hnone : ∀ suf : List (IfStmt (Fin 5 → Bool)), (∀ s ∈ suf, s ∈ demo123) →
      ¬ ∀ env, ∃ s ∈ suf, holds demoZ3 env s.cond = true := by
    intro suf hsub hv
    obtain ⟨s, hs, hh⟩ := hv 4
    have hm := hsub s hs
    simp only [demo123, List.mem_cons, List.mem_singleton, List.not_mem_nil, or_false] at hm
    rcases hm with rfl | rfl | rfl <;> exact absurd hh (by decide)
  have hex : Exclusive demoZ3 demo123 := by
    unfold Exclusive demo123
    simp only [List.pairwise_cons, List.mem_cons, List.mem_singleton, List.not_mem_nil,
      forall_eq_or_imp, forall_eq, IsEmpty.forall_iff, implies_true, List.Pairwise.nil,
      and_true, or_false]
    refine ⟨⟨?_, ?_⟩, ?_⟩ <;> intro env <;> revert env <;> decide
  have hsuf : ∀ pre suf, demo123 = pre ++ suf → pre ≠ [] → suf ≠ [] →
      ¬ ∀ env, ∃ s ∈ suf, holds demoZ3 env s.cond = true := by
    intro pre suf h _ _
    exact hnone suf (fun s hs => by rw [h]; exact List.mem_append_right _ hs)
  have hno : ∀ s ∈ demo123, s.else_ = none := by
    intro s hs
    simp only [demo123, List.mem_cons, List.mem_singleton, List.not_mem_nil, or_false] at hs
    rcases hs with rfl | rfl | rfl <;> rfl
  have key := C11_fully_exclusive_list demoZ3 demoZ3_exact demoPass demo123 hno hex hsuf
  exact ⟨demoZ3_exact, hno, hex, hsuf, by decide, by decide, hnone demo123 (fun _ h => h),
    key.1, key.2 (by decide) (by decide)⟩

/-- C12 (counterexample). For scenario 2 (`x==1`, `x==2`, `x==3`, `true`, exact
prover) the backward scan takes the fourth statement first and stops right
after it, because its guard alone is a tautology: the run is the fourth
statement alone, `CreateIfElseStmts` records nothing, and `VisitCompoundStmt`
leaves the block as it is; the first three statements are not merged. -/
theorem C12_catch_all_merges_nothing :
    ProveExact demoZ3 ∧
    gather demoZ3 demoCatchAll.reverse ⟨[], []⟩
      = some ⟨[ifX 4 (fun _ => true) 14], [.atom (fun _ => true)]⟩ ∧
    CreateIfElseStmts demoZ3 demoPass demoCatchAll = some demoPass ∧
    GetIfStmts demoCatchAllBlock = demoCatchAll ∧
    VisitCompoundStmt demoZ3 demoPass 50 demoCatchAllBlock
      = some (demoPass, demoCatchAllBlock.map some) ∧
    demoPass.substitutions 1 = none :=
  ⟨demoZ3_exact, rfl, rfl, rfl, rfl, rfl⟩

/-- C12 (amended). For a block whose conditional children are, in source order,
`if (x==1)`, `if (x==2)`, `if (x==3)` and `if (true)`, none with an else-branch
(any addresses and bodies), and none of whose children is a key of
`substitutions`: the detector stops early on exhaustiveness with a run that
consists of the fourth statement alone, `CreateIfElseStmts` records no
substitution and `VisitCompoundStmt` leaves the block unchanged, so all four
statements remain separate. -/
theorem C12_catch_all_stops_scan (p : Pass (Fin 5 → Bool)) (a1 a2 a3 a4 : Nat)
    (t1 t2 t3 t4 : Stmt (Fin 5 → Bool)) (addr : Nat) (body : List (Stmt (Fin 5 → Bool)))
    (hb : GetIfStmts body
      = [⟨a1, xEq 1, t1, none⟩, ⟨a2, xEq 2, t2, none⟩, ⟨a3, xEq 3, t3, none⟩,
         ⟨a4, fun _ => true, t4, none⟩])
    (hno : ∀ ch ∈ body, p.substitutions ch.addr = none) :
    gather demoZ3 (GetIfStmts body).reverse ⟨[], []⟩
      = some ⟨[⟨a4, fun _ => true, t4, none⟩], [.atom (fun _ => true)]⟩ ∧
    IsTautology demoZ3 [.atom (fun _ => true)] = some true ∧
    CreateIfElseStmts demoZ3 p (GetIfStmts body) = some p ∧
    VisitCompoundStmt demoZ3 p addr body = some (p, body.map some) := by
  have h := @gather_last_tautology _ _ demoZ3 p
    [⟨a1, xEq 1, t1, none⟩, ⟨a2, xEq 2, t2, none⟩, ⟨a3, xEq 3, t3, none⟩]
    ⟨a4, fun _ => true, t4, none⟩ rfl (Or.inr ⟨true, rfl⟩) rfl
  rw [hb]
  refine ⟨h.1, rfl, h.2, ?_⟩
  apply VisitCompoundStmt_untouched _ hno
  rw [hb]
  exact h.2

/-- Witness of the amended C12 on the block of scenario 2. -/
theorem C12_catch_all_stops_scan_witness :
    GetIfStmts demoCatchAllBlock
      = [⟨1, xEq 1, .Other 11, none⟩, ⟨2, xEq 2, .Other 12, none⟩,
         ⟨3, xEq 3, .Other 13, none⟩, ⟨4, fun _ => true, .Other 14, none⟩] ∧
    (∀ ch ∈ demoCatchAllBlock, demoPass.substitutions ch.addr = none) ∧
    gather demoZ3 (GetIfStmts demoCatchAllBlock).reverse ⟨[], []⟩
      = some ⟨[⟨4, fun _ => true, .Other 14, none⟩], [.atom (fun _ => true)]⟩ ∧
    IsTautology demoZ3 [.atom (fun _ => true)] = some true ∧
    CreateIfElseStmts demoZ3 demoPass (GetIfStmts demoCatchAllBlock) = some demoPass ∧
    VisitCompoundStmt demoZ3 demoPass 50 demoCatchAllBlock
      = some (demoPass, demoCatchAllBlock.map some) :=
  ⟨rfl, fun _ _ => rfl,
    C12_catch_all_stops_scan demoPass 1 2 3 4 (.Other 11) (.Other 12) (.Other 13) (.Other 14)
      50 demoCatchAllBlock rfl (fun _ _ => rfl)⟩

/-- C13. Conservative use of the prover: with a prover that never answers
"proved" on an invalid formula (it may answer "not proved" on a valid one), any
two statements at different positions of the run left by the gather loop have
guards that cannot hold together; and for a list of two statements whose
guards can hold together `CreateIfElseStmts` can only return the pass object
unchanged, and does return it when the prover answers every query. -/
theorem C13_conservative_prover {E Env : Type} (z3 : Z3 E Env) (hp : ProveSound z3)
    (p : Pass E) (stmts : List (IfStmt E)) :
    (∀ c, gather z3 stmts.reverse ⟨[], []⟩ = some c →
      ∀ i j (hi : i < c.elifs.length) (hj : j < c.elifs.length), i ≠ j →
        ∀ env, ¬(holds z3 env (c.elifs[i]).cond = true ∧
          holds z3 env (c.elifs[j]).cond = true)) ∧
    (∀ a b, stmts = [a, b] →
      (∃ env, holds z3 env a.cond = true ∧ holds z3 env b.cond = true) →
      (∀ p1, CreateIfElseStmts z3 p stmts = some p1 → p1 = p) ∧
      ((∀ e, ∃ r, Prove z3 e = some r) → CreateIfElseStmts z3 p stmts = some p)) := by
  constructor
  · intro c hg i j hi hj hne env hboth
    exact hne ((gather_exclusive hp hg).unique env i j hi hj hboth.1 hboth.2)
  · intro a b hab hov
    subst hab
    have key : ∀ c, gather z3 [a, b].reverse ⟨[], []⟩ = some c →
        CreateIfElseStmts z3 p [a, b] = some p := by
      intro c hg
      simp only [CreateIfElseStmts, hg]
      exact buildCascade_short p _ (gather_two_overlapping hp hg hov)
    constructor
    · intro p1 h
      cases hg : gather z3 [a, b].reverse ⟨[], []⟩ with
      | none =>
        simp only [CreateIfElseStmts, hg] at h
        cases h
      | some c =>
        rw [key c hg] at h
        exact (Option.some.inj h).symm
    · intro hans
      obtain ⟨c, hg⟩ := gather_total hans [a, b].reverse ⟨[], []⟩
      exact key c hg

/-- Witness of C13 on scenario 3: two conditionals with the guard `x==1` are
not merged. -/
theorem C13_conservative_prover_witness :
    ProveSound demoZ3 ∧ demoSame = [ifX 1 (xEq 1) 11, ifX 2 (xEq 1) 12] ∧
    (∃ env, holds demoZ3 env (ifX 1 (xEq 1) 11).cond = true ∧
      holds demoZ3 env (ifX 2 (xEq 1) 12).cond = true) ∧
    (∀ e, ∃ r, Prove demoZ3 e = some r) ∧
    CreateIfElseStmts demoZ3 demoPass demoSame = some demoPass ∧
    gather demoZ3 demo123.reverse ⟨[], []⟩ = some demo123Run ∧
    (∀ env, ¬(holds demoZ3 env (demo123Run.elifs[0]).cond = true ∧
      holds demoZ3 env (demo123Run.elifs[2]).cond = true)) :=
  ⟨demoZ3_exact.sound, rfl, ⟨1, rfl, rfl⟩, demoZ3_total,
    ((C13_conservative_prover demoZ3 demoZ3_exact.sound demoPass demoSame).2
      (ifX 1 (xEq 1) 11) (ifX 2 (xEq 1) 12) rfl ⟨1, rfl, rfl⟩).2 demoZ3_total,
    rfl,
    (C13_conservative_prover demoZ3 demoZ3_exact.sound demoPass demo123).1 demo123Run rfl
      0 2 (by decide) (by decide) (by decide)⟩

/-- C14. Which run is returned: when the backward scan completes with run `c`
and leaves `rest` unscanned (`rest` is empty when the scan was never stopped,
and otherwise starts with the statement at which the exhaustiveness check
stopped it), the list is `rest` (in source order), then the run, then the
statements scanned and dropped: the run is a contiguous segment.  The run is
non-empty for a non-empty list when the prover does not prove the empty
disjunction `false` a tautology (as every sound prover).  If the scan was
stopped, the guards of the run were proved exhaustive, and (siblings with
distinct addresses) the statement it stopped at and all earlier ones are
outside the run and keep whatever entry they had in `substitutions`.  If the
scan was never stopped, the run is an initial segment of the list. -/
theorem C14_which_run {E Env : Type} (z3 : Z3 E Env) (p : Pass E) (stmts : List (IfStmt E))
    (c : Candidates E Env) (rest : List (IfStmt E))
    (h : gatherRest z3 stmts.reverse ⟨[], []⟩ = some (c, rest)) :
    gather z3 stmts.reverse ⟨[], []⟩ = some c ∧
    (∃ B, stmts = rest.reverse ++ c.elifs.reverse ++ B) ∧
    (IsTautology z3 [] ≠ some true → stmts ≠ [] → c.elifs ≠ []) ∧
    (rest ≠ [] → IsTautology z3 c.conds = some true) ∧
    ((stmts.map IfStmt.addr).Nodup → ∀ s ∈ rest, s ∉ c.elifs ∧
      ∀ p1, CreateIfElseStmts z3 p stmts = some p1 →
        p1.substitutions s.addr = p.substitutions s.addr) ∧
    (rest = [] → ∃ B, stmts = c.elifs.reverse ++ B) := by
  obtain ⟨hg, scanned, hxs, hscan, hstop⟩ := gatherRest_eq_some h
  obtain ⟨pre, hpre⟩ := hscan.suffix
  simp only [List.nil_append] at hpre
  have hseg : stmts = rest.reverse ++ c.elifs.reverse ++ pre.reverse := by
    have := congrArg List.reverse hxs
    rw [List.reverse_reverse, hpre] at this
    simpa using this
  refine ⟨hg, ⟨_, hseg⟩, ?_, hstop, ?_, ?_⟩
  · intro h0 hne
    cases scanned with
    | nil =>
      exfalso
      cases hscan
      have hr : rest ≠ [] := by
        intro hr
        rw [hr] at hxs
        simp at hxs
        exact hne hxs
      exact h0 (hstop hr)
    | cons x xs => exact hscan.elifs_ne_nil
  · intro hnd s hs
    have hdis : s.addr ∉ c.elifs.map IfStmt.addr := by
      rw [hseg] at hnd
      simp only [List.map_append, List.map_reverse] at hnd
      have hd := (List.nodup_append.1 (List.nodup_append.1 hnd).1).2.2
      intro hm
      exact hd (List.mem_reverse.2 (List.mem_map.2 ⟨s, hs, rfl⟩)) (List.mem_reverse.2 hm)
    refine ⟨fun hm => hdis (List.mem_map.2 ⟨s, hm, rfl⟩), ?_⟩
    intro p1 hc
    exact CreateIfElseStmts_other_keys hg hnd hc _ hdis
  · intro hr
    refine ⟨pre.reverse, ?_⟩
    rw [hseg, hr]
    simp

/-- Witness of C14 on the four conditionals `x!=1`, `x==1`, `x==1`, `x!=1`: the scan
is stopped at the second statement, and the run is the last two. -/
theorem C14_which_run_witness :
    gatherRest demoZ3 demoTwiceIfs.reverse ⟨[], []⟩
      = some (demoTwiceRun, [ifX 2 (xEq 1) 12, ifX 1 (xNe 1) 11]) ∧
    gather demoZ3 demoTwiceIfs.reverse ⟨[], []⟩ = some demoTwiceRun ∧
    (∃ B, demoTwiceIfs
      = [ifX 2 (xEq 1) 12, ifX 1 (xNe 1) 11].reverse ++ demoTwiceRun.elifs.reverse ++ B) ∧
    (IsTautology demoZ3 [] ≠ some true → demoTwiceIfs ≠ [] → demoTwiceRun.elifs ≠ []) ∧
    ([ifX 2 (xEq 1) 12, ifX 1 (xNe 1) 11] ≠ [] →
      IsTautology demoZ3 demoTwiceRun.conds = some true) ∧
    ((demoTwiceIfs.map IfStmt.addr).Nodup →
      ∀ s ∈ [ifX 2 (xEq 1) 12, ifX 1 (xNe 1) 11], s ∉ demoTwiceRun.elifs ∧
        ∀ p1, CreateIfElseStmts demoZ3 demoPass demoTwiceIfs = some p1 →
          p1.substitutions s.addr = demoPass.substitutions s.addr) ∧
    (([ifX 2 (xEq 1) 12, ifX 1 (xNe 1) 11] : List (IfStmt (Fin 5 → Bool))) = [] →
      ∃ B, demoTwiceIfs = demoTwiceRun.elifs.reverse ++ B) :=
  ⟨rfl, C14_which_run demoZ3 demoPass demoTwiceIfs demoTwiceRun
    [ifX 2 (xEq 1) 12, ifX 1 (xNe 1) 11] rfl⟩

/-- C15. Else-branch of the last run member: when `CreateIfElseStmts` collapses a
run `S1..Sn` (`n ≥ 2`, siblings with distinct addresses) whose source-last
statement `Sn` has an else-branch `Els` (a node older than the nodes the builder
allocates, occurring in no then-branch of the run), `Sn` is mapped to the
delete marker, the last branch of the cascade `R1` recorded for `S1` is a block
holding exactly the then-branch of `Sn`, `Els` does not occur in `R1`, and `R1`
is the only statement the call adds as a value of `substitutions`; hence `Els`
occurs in no child of the block `VisitCompoundStmt` registers for a block with
these conditional children, provided it occurs in no other child. -/
theorem C15_else_of_last_dropped {E Env : Type} (z3 : Z3 E Env) (p : Pass E)
    (stmts : List (IfStmt E)) (c : Candidates E Env)
    (hg : gather z3 stmts.reverse ⟨[], []⟩ = some c) (hn : 2 ≤ c.elifs.length)
    (hnd : (stmts.map IfStmt.addr).Nodup)
    (sn : IfStmt E) (Els : Stmt E) (hsn : c.elifs.head? = some sn) (hE : sn.else_ = some Els)
    (hthen : ∀ s ∈ c.elifs, s.then_.contains Els.addr = false)
    (hold : Els.addr < p.ast_ctx) :
    ∃ p1 s1 R1, CreateIfElseStmts z3 p stmts = some p1 ∧ c.elifs.reverse.head? = some s1 ∧
      p1.substitutions sn.addr = some none ∧
      p1.substitutions s1.addr = some (some R1) ∧
      lastBranch R1 = .CompoundStmt (p.ast_ctx + (c.elifs.length - 1)) [sn.then_] ∧
      R1.contains Els.addr = false ∧
      (∀ k v, p1.substitutions k = some (some v) → v = R1 ∨ p.substitutions k = some (some v)) ∧
      (∀ addr body, GetIfStmts body = stmts → (body.map Stmt.addr).Nodup →
        (∀ ch ∈ body, ch.addr ∉ c.elifs.map IfStmt.addr →
          p.substitutions ch.addr = none ∧ ch.contains Els.addr = false) →
        ∃ q body1 a1 body2, VisitCompoundStmt z3 p addr body = some (q, body1) ∧
          q.substitutions addr = some (some (.CompoundStmt a1 body2)) ∧
          containsList Els.addr body2 = false) := by
  obtain ⟨s1, mid, sn2, hrun, h⟩ := CreateIfElseStmts_run p hg hn hnd
  obtain ⟨R1, hR1⟩ := cascadeOf_cons_some p.ast_ctx s1 (mid ++ [sn2])
  have he : c.elifs = (s1 :: (mid ++ [sn2])).reverse := by
    rw [← hrun, List.reverse_reverse]
  have hsn2 : sn2 = sn := by
    rw [he] at hsn
    simpa using hsn
  subst hsn2
  obtain ⟨A, B, hseg, -, -⟩ := gather_segment hg
  have hrn := run_nodup hseg hnd
  rw [hrun] at hrn
  have hne : sn2.addr ≠ s1.addr := by
    simp only [List.map_cons, List.map_append, List.map_nil, List.nodup_cons, List.mem_append,
      List.mem_map, List.mem_singleton, not_or, not_exists, not_and] at hrn
    exact fun h => hrn.1.2 h.symm
  have hl := lastBranch_cascadeOf p.ast_ctx s1 mid sn2
  rw [hR1, Option.map_some', Option.some.injEq] at hl
  have hcont : R1.contains Els.addr = false := by
    refine cascadeOf_contains Els.addr (s1 :: (mid ++ [sn2])) p.ast_ctx R1 ?_ hold hR1
    intro s hs
    exact hthen s (by rw [he]; exact List.mem_reverse.2 hs)
  refine ⟨_, s1, R1, h, by rw [hrun]; rfl, ?_, ?_, ?_, hcont, ?_, ?_⟩
  · simp [hne]
  · simp [hrun, hR1]
  · rw [hl, he]; simp
  · intro k v hk
    by_cases h1 : k = s1.addr
    · simp only [h1, if_true, hrun, hR1, Option.some.injEq] at hk
      exact Or.inl hk.symm
    · by_cases h2 : k ∈ (mid ++ [sn2]).map IfStmt.addr
      · simp only [h1, h2, if_false, if_true, Option.some.injEq] at hk
        cases hk
      · simp only [h1, h2, if_false] at hk
        exact Or.inr hk
  · intro addr body hb hbn hoth
    subst hb
    obtain ⟨s1b, midb, snb, R1b, q, body1, hrunb, hR1b, hv, hsub⟩ :=
      VisitCompoundStmt_run p addr hg hn hbn (fun ch hch hx => (hoth ch hch hx).1)
    rw [hrun, List.cons.injEq] at hrunb
    obtain ⟨e1, e2⟩ := hrunb
    subst e1
    rw [← e2, hR1, Option.some.injEq] at hR1b
    subst hR1b
    refine ⟨q, body1, _, _, hv, hsub, ?_⟩
    rw [containsList_eq_false]
    intro ch hch
    rw [List.mem_filterMap] at hch
    obtain ⟨ch0, hch0, hf⟩ := hch
    by_cases h1 : ch0.addr = s1.addr
    · simp only [h1, if_true, Option.some.injEq] at hf
      rw [← hf]; exact hcont
    · by_cases h2 : ch0.addr ∈ (midb ++ [snb]).map IfStmt.addr
      · simp only [h1, h2, if_false, if_true] at hf
        cases hf
      · simp only [h1, h2, if_false, Option.some.injEq] at hf
        subst hf
        refine (hoth ch0 hch0 ?_).2
        rw [he, List.map_reverse, List.mem_reverse, List.map_cons, List.mem_cons, not_or, e2]
        exact ⟨h1, h2⟩

/-- Witness of C15 on `if (x==1) ..; if (x==2) .. else ..`: the else-branch (the
statement at address 22) of the second conditional is in neither the cascade
nor the rebuilt block. -/
theorem C15_else_of_last_dropped_witness :
    gather demoZ3 demoElse.reverse ⟨[], []⟩ = some demoElseRun ∧
    2 ≤ demoElseRun.elifs.length ∧ (demoElse.map IfStmt.addr).Nodup ∧
    demoElseRun.elifs.head? = some ⟨2, xEq 2, .Other 12, some (.Other 22)⟩ ∧
    (∀ s ∈ demoElseRun.elifs, s.then_.contains 22 = false) ∧ 22 < demoPass.ast_ctx ∧
    (VisitCompoundStmt demoZ3 demoPass 50
        [(ifX 1 (xEq 1) 11).toStmt, .IfStmt 2 (xEq 2) (.Other 12) (some (.Other 22))]).map
        (fun r => r.1.substitutions 50)
      = some (some (some (.CompoundStmt 102
          [.IfStmt 100 (xEq 1) (.Other 11) (some (.CompoundStmt 101 [.Other 12]))]))) ∧
    ∃ p1 s1 R1, CreateIfElseStmts demoZ3 demoPass demoElse = some p1 ∧
      demoElseRun.elifs.reverse.head? = some s1 ∧
      p1.substitutions 2 = some none ∧
      p1.substitutions s1.addr = some (some R1) ∧
      lastBranch R1
        = .CompoundStmt (demoPass.ast_ctx + (demoElseRun.elifs.length - 1)) [.Other 12] ∧
      R1.contains 22 = false ∧
      (∀ k v, p1.substitutions k = some (some v) →
        v = R1 ∨ demoPass.substitutions k = some (some v)) ∧
      (∀ addr body, GetIfStmts body = demoElse → (body.map Stmt.addr).Nodup →
        (∀ ch ∈ body, ch.addr ∉ demoElseRun.elifs.map IfStmt.addr →
          demoPass.substitutions ch.addr = none ∧ ch.contains 22 = false) →
        ∃ q body1 a1 body2, VisitCompoundStmt demoZ3 demoPass addr body = some (q, body1) ∧
          q.substitutions addr = some (some (.CompoundStmt a1 body2)) ∧
          containsList 22 body2 = false) :=
  ⟨rfl, by decide, by decide, rfl,
    (by
      intro s hs
      simp only [demoElseRun, List.mem_cons, List.mem_singleton, List.not_mem_nil,
        or_false] at hs
      rcases hs with rfl | rfl <;> rfl),
    by decide, rfl,
    C15_else_of_last_dropped demoZ3 demoPass demoElse demoElseRun rfl (by decide) (by decide)
      ⟨2, xEq 2, .Other 12, some (.Other 22)⟩ (.Other 22) rfl rfl
      (by
        intro s hs
        simp only [demoElseRun, List.mem_cons, List.mem_singleton, List.not_mem_nil,
          or_false] at hs
        rcases hs with rfl | rfl <;> rfl)
      (by decide)⟩

/-- C16. Tautological last guard blocks the rewrite: with a sound prover that
answers every query, if the prover proves the guard of the source-last
statement `sn` of a list a tautology, then the backward scan stops with the
run `[sn]` and `CreateIfElseStmts` returns the pass object unchanged, whatever
the statements before `sn` are. -/
theorem C16_tautological_last_guard {E Env : Type} [Inhabited Env] (z3 : Z3 E Env)
    (hp : ProveSound z3) (hans : ∀ e, ∃ b, Prove z3 e = some b) (p : Pass E)
    (front : List (IfStmt E)) (sn : IfStmt E)
    (ht : IsTautology z3 [GetZ3Cond z3 sn] = some true) :
    gather z3 (front ++ [sn]).reverse ⟨[], []⟩ = some ⟨[sn], [GetZ3Cond z3 sn]⟩ ∧
    CreateIfElseStmts z3 p (front ++ [sn]) = some p :=
  gather_last_tautology p front sn (IsTautology_nil_of_sound hp hans)
    (Or.inr (hans _)) ht

/-- Witness of C16 on scenario 2, whose last guard is `true`. -/
theorem C16_tautological_last_guard_witness :
    ProveSound demoZ3 ∧ (∀ e, ∃ b, Prove demoZ3 e = some b) ∧
    IsTautology demoZ3 [GetZ3Cond demoZ3 (ifX 4 (fun _ => true) 14)] = some true ∧
    gather demoZ3 ([ifX 1 (xEq 1) 11, ifX 2 (xEq 2) 12, ifX 3 (xEq 3) 13]
        ++ [ifX 4 (fun _ => true) 14]).reverse ⟨[], []⟩
      = some ⟨[ifX 4 (fun _ => true) 14], [GetZ3Cond demoZ3 (ifX 4 (fun _ => true) 14)]⟩ ∧
    CreateIfElseStmts demoZ3 demoPass
        ([ifX 1 (xEq 1) 11, ifX 2 (xEq 2) 12, ifX 3 (xEq 3) 13] ++ [ifX 4 (fun _ => true) 14])
      = some demoPass :=
  ⟨demoZ3_exact.sound, demoZ3_total, rfl,
    C16_tautological_last_guard demoZ3 demoZ3_exact.sound demoZ3_total demoPass
      [ifX 1 (xEq 1) 11, ifX 2 (xEq 2) 12, ifX 3 (xEq 3) 13] (ifX 4 (fun _ => true) 14) rfl⟩

/-- C17. Derived predicates equal their definitions: with a solver that decides
satisfiability exactly and a simplifier that preserves meaning, `Prove` answers
`true` exactly on the valid formulas, `IsUnrechable` answers `true` exactly when
`cond AND OR(conds)` is unsatisfiable, `IsTautology` answers `true` exactly when
`OR(conds)` is valid; for the empty `conds` the tautology test answers `false`
and the unreachability test answers `true` for every `cond`. -/
theorem C17_derived_predicates {E Env : Type} [Inhabited Env] (z3 : Z3 E Env)
    (hs : SolverExact z3) (hsimp : SimplifySound z3) :
    (∀ e, ∃ b, Prove z3 e = some b ∧ (b = true ↔ ∀ env, e.eval env = true)) ∧
    (∀ conds cond, ∃ b, IsUnrechable z3 conds cond = some b ∧
      (b = true ↔ ∀ env, ¬(cond.eval env = true ∧ (mk_or conds).eval env = true))) ∧
    (∀ conds, ∃ b, IsTautology z3 conds = some b ∧
      (b = true ↔ ∀ env, (mk_or conds).eval env = true)) ∧
    IsTautology z3 [] = some false ∧
    (∀ cond, IsUnrechable z3 [] cond = some true) := by
  have hp : ProveExact z3 := ProveExact_of_solver hs hsimp
  exact ⟨hp, IsUnrechable_exact hp, IsTautology_exact hp, IsTautology_nil hp,
    IsUnrechable_nil hp⟩

/-- Witness of C17 in the example world. -/
theorem C17_derived_predicates_witness :
    SolverExact demoZ3 ∧ SimplifySound demoZ3 ∧
    (∀ e, ∃ b, Prove demoZ3 e = some b ∧ (b = true ↔ ∀ env, e.eval env = true)) ∧
    (∀ conds cond, ∃ b, IsUnrechable demoZ3 conds cond = some b ∧
      (b = true ↔ ∀ env, ¬(cond.eval env = true ∧ (mk_or conds).eval env = true))) ∧
    (∀ conds, ∃ b, IsTautology demoZ3 conds = some b ∧
      (b = true ↔ ∀ env, (mk_or conds).eval env = true)) ∧
    IsTautology demoZ3 [] = some false ∧
    (∀ cond, IsUnrechable demoZ3 [] cond = some true) :=
  ⟨demoZ3_solverExact, demoZ3_simplifySound,
    C17_derived_predicates demoZ3 demoZ3_solverExact demoZ3_simplifySound⟩

/-- C18. Prover result and failure: `Prove` aborts exactly when the solver
application yields a number of sub-goals different from one; when it yields
the single sub-goal `g`, `Prove` returns whether `g` is decided unsatisfiable,
so `true` for a sub-goal decided unsatisfiable and `false` for one that is
decided satisfiable or left undecided. -/
theorem C18_prove_result {E Env : Type} (z3 : Z3 E Env) (e : Z3Expr Env) :
    (Prove z3 e = none ↔ (z3.z3_solver (z3.simplify (.not e))).length ≠ 1) ∧
    (∀ g, z3.z3_solver (z3.simplify (.not e)) = [g] →
      Prove z3 e = some g.is_decided_unsat ∧
      (Prove z3 e = some true ↔ g = .decided_unsat)) ∧
    (z3.z3_solver (z3.simplify (.not e)) = [.decided_sat] → Prove z3 e = some false) ∧
    (z3.z3_solver (z3.simplify (.not e)) = [.undecided] → Prove z3 e = some false) := by
  refine ⟨Prove_eq_none_iff e, ?_, ?_, ?_⟩
  · intro g hg
    refine ⟨Prove_of_single hg, ?_⟩
    rw [Prove_of_single hg]
    cases g <;> simp [Goal.is_decided_unsat]
  · intro h; rw [Prove_of_single h]; rfl
  · intro h; rw [Prove_of_single h]; rfl

/-- Witness of C18: a solver application with two sub-goals aborts `Prove`, and
a single undecided sub-goal yields `false`. -/
theorem C18_prove_result_witness :
    (demoZ3Two.z3_solver (demoZ3Two.simplify (.not (.bool_val true)))).length ≠ 1 ∧
    Prove demoZ3Two (.bool_val true) = none ∧
    demoZ3Unknown.z3_solver (demoZ3Unknown.simplify (.not (.bool_val true))) = [.undecided] ∧
    Prove demoZ3Unknown (.bool_val true) = some false :=
  ⟨by decide, (C18_prove_result demoZ3Two (.bool_val true)).1.2 (by decide), rfl,
    (C18_prove_result demoZ3Unknown (.bool_val true)).2.2.2 rfl⟩

end rellic
